import Mathlib

/-!
Package `base64` of gidgets: an order-preserving base64 wrapper.

Shallow embedding of `src/base64/base64.go`.  The package is a thin wrapper
around Go's standard `encoding/base64` and `encoding/binary`; the wrapper
functions are transcribed from `src/base64/base64.go`, and the standard
library routines they call (`NewEncoding`, `WithPadding`, `EncodeToString`,
`DecodeString`, `Decode`, `decodeQuantum`, `assemble32`, `assemble64`,
`PutUint64`, `Uint64`) are transcribed from the Go standard library.

Conventions of the embedding:

* a `byte` is a `Nat` below 256, a `[]byte` / `string` is a `List Nat`
  (`IsBytes` states the bound); `uint`/`uint64` arithmetic is `Nat`
  arithmetic, reduced modulo `2 ^ 64` where the Go value could exceed it,
  and `byte(x)` is `x % 256`;
* a Go `error` result is an `Option CorruptInputError` (`none` is `nil`);
* a call that may end in a Go run-time panic (index out of range) returns
  a `Run`, whose `Run.panics` is the panic;
* the loops of `Decode`, whose termination is not structural, carry a fuel
  argument and return `none` when it is exhausted; `Decode` supplies
  `len(src)`, which is always enough.
-/

namespace Gidgets

/-! ## Data model -/

/-- Every element of the sequence is a byte value (below 256). -/
def IsBytes (b : List Nat) : Prop := ∀ x ∈ b, x < 256

instance (b : List Nat) : Decidable (IsBytes b) := by
  unfold IsBytes; infer_instance

/-- Go string literal as its sequence of bytes (ASCII only). -/
def bytesOf (s : String) : List Nat := s.toList.map Char.toNat

/-- Byte-wise lexicographic comparison `a < b` of Go strings: the first
differing byte decides, and a proper prefix is smaller. -/
def strLess : List Nat → List Nat → Bool
  | [], [] => false
  | [], _ :: _ => true
  | _ :: _, [] => false
  | a :: as, b :: bs => decide (a < b) || (a == b && strLess as bs)

/-- Type `base64.CorruptInputError` (an `int64` offset into the input). -/
structure CorruptInputError where
  offset : Int
  deriving DecidableEq, Repr

/-- Type `base64.Encoding`: the alphabet, its inverse table, the padding
character (a rune; `-1` for none) and the strict flag. -/
structure Encoding where
  encode : List Nat
  decodeMap : List Nat
  padChar : Int
  strict : Bool
  deriving DecidableEq, Repr

/-- Constant `base64.StdPadding`, the rune `'='`. -/
def StdPadding : Int := 61

/-- Constant `base64.NoPadding`, the rune `-1`. -/
def NoPadding : Int := -1

/-- Function `base64.NewEncoding`: the padded encoding over the given
64-byte alphabet.  `decodeMap` is first filled with `0xFF` and then
`decodeMap[encoder[i]] = byte(i)` for `i = 0 .. len(encoder)-1`.
(The Go function panics unless the alphabet has 64 bytes and no newline;
see `urlSafeAsc_accepted`.) -/
def NewEncoding (encoder : List Nat) : Encoding :=
  { encode := encoder
    decodeMap := (List.range encoder.length).foldl
      (fun m i => m.set (encoder.getD i 0) i) (List.replicate 256 0xFF)
    padChar := StdPadding
    strict := false }

/-- Method `(Encoding).WithPadding`: the same encoding with another padding
character. -/
def Encoding.WithPadding (enc : Encoding) (padding : Int) : Encoding :=
  { enc with padChar := padding }

/-- Constant `urlSafeAsc` of `base64.go`: the URL-safe alphabet in ASCII
order. -/
def urlSafeAsc : List Nat :=
  bytesOf "-0123456789ABCDEFGHIJKLMNOPQRSTUVWXYZ_abcdefghijklmnopqrstuvwxyz"

/-- Variable `stdPadding` of `base64.go`. -/
def stdPadding : Encoding := NewEncoding urlSafeAsc

/-- Variable `noPadding` of `base64.go`. -/
def noPadding : Encoding := (NewEncoding urlSafeAsc).WithPadding NoPadding

/-- Constant `encodeStd` of `encoding/base64`: the standard alphabet. -/
def encodeStd : List Nat :=
  bytesOf "ABCDEFGHIJKLMNOPQRSTUVWXYZabcdefghijklmnopqrstuvwxyz0123456789+/"

/-- Variable `base64.StdEncoding`: the standard padded encoding. -/
def StdEncoding : Encoding := NewEncoding encodeStd

/-! ## Encoding -/

/-- Alphabet lookup `enc.encode[i]`. -/
def Encoding.enc (e : Encoding) (i : Nat) : Nat := e.encode.getD i 0

/-- Method `(Encoding).EncodedLen`. -/
def Encoding.EncodedLen (e : Encoding) (n : Nat) : Nat :=
  if e.padChar = NoPadding then (n * 8 + 5) / 6 else (n + 2) / 3 * 4

/-- Method `(Encoding).Encode`, returning the bytes it writes to `dst`:
whole 3-byte groups give four characters each, then the remaining one or
two bytes give two or three characters, followed by padding when the
encoding has a padding character. -/
def Encoding.Encode (e : Encoding) : List Nat → List Nat
  | [] => []
  | [a] =>
    let val := a <<< 16
    e.enc (val >>> 18 &&& 0x3F) :: e.enc (val >>> 12 &&& 0x3F) ::
      (if e.padChar ≠ NoPadding then [e.padChar.toNat % 256, e.padChar.toNat % 256] else [])
  | [a, b] =>
    let val := a <<< 16 ||| b <<< 8
    e.enc (val >>> 18 &&& 0x3F) :: e.enc (val >>> 12 &&& 0x3F) ::
      e.enc (val >>> 6 &&& 0x3F) ::
      (if e.padChar ≠ NoPadding then [e.padChar.toNat % 256] else [])
  | a :: b :: c :: rest =>
    let val := a <<< 16 ||| b <<< 8 ||| c
    e.enc (val >>> 18 &&& 0x3F) :: e.enc (val >>> 12 &&& 0x3F) ::
      e.enc (val >>> 6 &&& 0x3F) :: e.enc (val &&& 0x3F) :: e.Encode rest

/-- Method `(Encoding).EncodeToString`: a buffer of `EncodedLen(len(src))`
bytes filled by `Encode` (which writes every position of it, see
`EncodeToString_length`). -/
def Encoding.EncodeToString (e : Encoding) (src : List Nat) : List Nat :=
  e.Encode src

/-! ## Decoding -/

/-- Method `(Encoding).DecodedLen`: the size of the destination buffer. -/
def Encoding.DecodedLen (e : Encoding) (n : Nat) : Nat :=
  if e.padChar = NoPadding then n * 6 / 8 else n / 4 * 3

/-- Inverse table lookup `enc.decodeMap[c]`. -/
def Encoding.dec (e : Encoding) (c : Nat) : Nat := e.decodeMap.getD c 0xFF

/-- The loop `for si < len(src) && (src[si] == '\n' || src[si] == '\r') { si++ }`
of `decodeQuantum`, on the unread input `src[si:]`. -/
def skipNewlines : List Nat → Nat → List Nat × Nat
  | [], si => ([], si)
  | c :: rest, si =>
    if c = 10 ∨ c = 13 then skipNewlines rest (si + 1) else (c :: rest, si)

/-- How the character loop of `decodeQuantum` ends: by a `return si, 0, err`
or by leaving the loop (`break`, or `j` reaching 4) with the collected
6-bit values `dbuf`, their number `dlen` and a possibly pending error. -/
inductive Scan where
  | ret (rest : List Nat) (si : Nat) (err : Option CorruptInputError)
  | brk (dbuf : List Nat) (dlen : Nat) (rest : List Nat) (si : Nat)
      (err : Option CorruptInputError)
  deriving DecidableEq, Repr

/-- The unread input left by the character loop of `decodeQuantum`. -/
def Scan.unread : Scan → List Nat
  | Scan.ret r _ _ => r
  | Scan.brk _ _ r _ _ => r

/-- The error with which the character loop of `decodeQuantum` ends. -/
def Scan.err : Scan → Option CorruptInputError
  | Scan.ret _ _ err => err
  | Scan.brk _ _ _ _ err => err

/-- An error whose offset is moved `k` characters on. -/
def shiftErr (k : Nat) (eo : Option CorruptInputError) : Option CorruptInputError :=
  eo.map (fun err => ⟨err.offset + (k : Int)⟩)

/-- The outcome of the character loop for an input that lies `k` characters
further on. -/
def Scan.shift (k : Nat) : Scan → Scan
  | Scan.ret r s eo => Scan.ret r (s + k) (shiftErr k eo)
  | Scan.brk d dlen r s eo => Scan.brk d dlen r (s + k) (shiftErr k eo)

/-- The loop `for j := 0; j < len(dbuf); j++` of `decodeQuantum`, started at
index `j` with the unread input `rest = src[si:]`. -/
def Encoding.scan (e : Encoding) (rest : List Nat) (j : Nat) (dbuf : List Nat) (si : Nat) :
    Scan :=
  if 4 ≤ j then Scan.brk dbuf 4 rest si none
  else
    match rest with
    | [] =>
      -- len(src) == si
      if j = 0 then Scan.ret [] si none
      else if j = 1 ∨ e.padChar ≠ NoPadding then
        Scan.ret [] si (some ⟨(si : Int) - (j : Int)⟩)
      else Scan.brk dbuf j [] si none
    | c :: rest1 =>
      let si1 := si + 1
      let out := e.dec c
      if out ≠ 0xFF then e.scan rest1 (j + 1) (dbuf.set j out) si1
      else if c = 10 ∨ c = 13 then e.scan rest1 j dbuf si1
      else if (c : Int) ≠ e.padChar then
        Scan.ret rest1 si1 (some ⟨(si1 : Int) - 1⟩)
      else if j = 0 ∨ j = 1 then
        -- incorrect padding
        Scan.ret rest1 si1 (some ⟨(si1 : Int) - 1⟩)
      else if j = 2 then
        -- "==" is expected, the first "=" is already consumed
        match skipNewlines rest1 si1 with
        | ([], si2) => Scan.ret [] si2 (some ⟨(si2 : Int)⟩)
        | (d :: rest3, si2) =>
          if (d : Int) ≠ e.padChar then
            Scan.ret (d :: rest3) si2 (some ⟨(si2 : Int) - 1⟩)
          else
            match skipNewlines rest3 (si2 + 1) with
            | ([], si4) => Scan.brk dbuf j [] si4 none
            | (r4, si4) => Scan.brk dbuf j r4 si4 (some ⟨(si4 : Int)⟩)
      else
        match skipNewlines rest1 si1 with
        | ([], si4) => Scan.brk dbuf j [] si4 none
        | (r4, si4) => Scan.brk dbuf j r4 si4 (some ⟨(si4 : Int)⟩)

/-- Result of `decodeQuantum`: the unread input `src[nsi:]`, the new index
`nsi`, the bytes written to `dst` (their number is the returned `n`) and
the error. -/
structure Quantum where
  rest : List Nat
  nsi : Nat
  out : List Nat
  err : Option CorruptInputError
  deriving DecidableEq, Repr

/-- Method `(Encoding).decodeQuantum`: decodes up to four characters of
`src` from index `si` into up to three bytes. -/
def Encoding.decodeQuantum (e : Encoding) (rest : List Nat) (si : Nat) : Quantum :=
  match e.scan rest 0 [0, 0, 0, 0] si with
  | Scan.ret r s err => ⟨r, s, [], err⟩
  | Scan.brk dbuf dlen r s err =>
    let val := dbuf.getD 0 0 <<< 18 ||| dbuf.getD 1 0 <<< 12 ||| dbuf.getD 2 0 <<< 6
      ||| dbuf.getD 3 0
    let b2 := val % 256
    let b1 := (val >>> 8) % 256
    let b0 := (val >>> 16) % 256
    match dlen with
    | 4 => ⟨r, s, [b0, b1, b2], err⟩
    | 3 =>
      if e.strict ∧ b2 ≠ 0 then ⟨r, s, [], some ⟨(s : Int) - 1⟩⟩
      else ⟨r, s, [b0, b1], err⟩
    | 2 =>
      if e.strict ∧ (b1 ≠ 0 ∨ b2 ≠ 0) then ⟨r, s, [], some ⟨(s : Int) - 2⟩⟩
      else ⟨r, s, [b0], err⟩
    | n => ⟨r, s, List.replicate (n - 1) 0, err⟩

/-- Function `assemble32` of `encoding/base64`: `none` is `ok == false`. -/
def assemble32 (n1 n2 n3 n4 : Nat) : Option Nat :=
  if n1 ||| n2 ||| n3 ||| n4 = 0xFF then none
  else some ((n1 <<< 26) % 2 ^ 32 ||| (n2 <<< 20) % 2 ^ 32 ||| (n3 <<< 14) % 2 ^ 32
    ||| (n4 <<< 8) % 2 ^ 32)

/-- Function `assemble64` of `encoding/base64`: `none` is `ok == false`. -/
def assemble64 (n1 n2 n3 n4 n5 n6 n7 n8 : Nat) : Option Nat :=
  if n1 ||| n2 ||| n3 ||| n4 ||| n5 ||| n6 ||| n7 ||| n8 = 0xFF then none
  else some ((n1 <<< 58) % 2 ^ 64 ||| (n2 <<< 52) % 2 ^ 64 ||| (n3 <<< 46) % 2 ^ 64
    ||| (n4 <<< 40) % 2 ^ 64 ||| (n5 <<< 34) % 2 ^ 64 ||| (n6 <<< 28) % 2 ^ 64
    ||| (n7 <<< 22) % 2 ^ 64 ||| (n8 <<< 16) % 2 ^ 64)

/-- Method `binary.BigEndian.PutUint32`: the four bytes written to `b`. -/
def BigEndian.PutUint32 (v : Nat) : List Nat :=
  [(v >>> 24) % 256, (v >>> 16) % 256, (v >>> 8) % 256, v % 256]

/-- Method `binary.BigEndian.PutUint64`: the eight bytes written to `b`. -/
def BigEndian.PutUint64 (v : Nat) : List Nat :=
  [(v >>> 56) % 256, (v >>> 48) % 256, (v >>> 40) % 256, (v >>> 32) % 256,
    (v >>> 24) % 256, (v >>> 16) % 256, (v >>> 8) % 256, v % 256]

/-- Method `binary.LittleEndian.PutUint64`: the eight bytes written to `b`. -/
def LittleEndian.PutUint64 (v : Nat) : List Nat :=
  [v % 256, (v >>> 8) % 256, (v >>> 16) % 256, (v >>> 24) % 256,
    (v >>> 32) % 256, (v >>> 40) % 256, (v >>> 48) % 256, (v >>> 56) % 256]

/-- Constant `strconv.IntSize` on a 64-bit platform. -/
def intSize : Nat := 64

/-- What `DecodeString` hands back: the slice `dbuf[:n]` and the error. -/
abbrev Decoded := List Nat × Option CorruptInputError

/-- Third loop of `(Encoding).Decode`: `for si < len(src)`, one
`decodeQuantum` per turn.  `out` is `dst[:n]`. -/
def Encoding.decodeTail (e : Encoding) (fuel : Nat) (rest : List Nat) (si : Nat)
    (out : List Nat) : Option Decoded :=
  if rest.length = 0 then some (out, none)
  else
    match fuel with
    | 0 => none
    | fuel1 + 1 =>
      let q := e.decodeQuantum rest si
      if q.err ≠ none then some (out ++ q.out, q.err)
      else e.decodeTail fuel1 q.rest q.nsi (out ++ q.out)

/-- Second loop of `(Encoding).Decode`: four characters at a time through
`assemble32` while `len(src)-si >= 4 && len(dst)-n >= 4` (`PutUint32` writes
four bytes at `dst[n:]` and `n` advances by three), falling back to
`decodeQuantum`; then the third loop. -/
def Encoding.decodeLoop32 (e : Encoding) (dstLen : Nat) (fuel : Nat) (rest : List Nat)
    (si : Nat) (out : List Nat) : Option Decoded :=
  if 4 ≤ rest.length ∧ 4 ≤ dstLen - out.length then
    match fuel with
    | 0 => none
    | fuel1 + 1 =>
      match assemble32 (e.dec (rest.getD 0 0)) (e.dec (rest.getD 1 0))
          (e.dec (rest.getD 2 0)) (e.dec (rest.getD 3 0)) with
      | some dn =>
        e.decodeLoop32 dstLen fuel1 (rest.drop 4) (si + 4)
          (out ++ (BigEndian.PutUint32 dn).take 3)
      | none =>
        let q := e.decodeQuantum rest si
        if q.err ≠ none then some (out ++ q.out, q.err)
        else e.decodeLoop32 dstLen fuel1 q.rest q.nsi (out ++ q.out)
  else e.decodeTail fuel rest si out

/-- First loop of `(Encoding).Decode`: eight characters at a time through
`assemble64` while `strconv.IntSize >= 64 && len(src)-si >= 8 &&
len(dst)-n >= 8` (`PutUint64` writes eight bytes at `dst[n:]` and `n`
advances by six), falling back to `decodeQuantum`; then the second loop. -/
def Encoding.decodeLoop64 (e : Encoding) (dstLen : Nat) (fuel : Nat) (rest : List Nat)
    (si : Nat) (out : List Nat) : Option Decoded :=
  if 64 ≤ intSize ∧ 8 ≤ rest.length ∧ 8 ≤ dstLen - out.length then
    match fuel with
    | 0 => none
    | fuel1 + 1 =>
      match assemble64 (e.dec (rest.getD 0 0)) (e.dec (rest.getD 1 0))
          (e.dec (rest.getD 2 0)) (e.dec (rest.getD 3 0)) (e.dec (rest.getD 4 0))
          (e.dec (rest.getD 5 0)) (e.dec (rest.getD 6 0)) (e.dec (rest.getD 7 0)) with
      | some dn =>
        e.decodeLoop64 dstLen fuel1 (rest.drop 8) (si + 8)
          (out ++ (BigEndian.PutUint64 dn).take 6)
      | none =>
        let q := e.decodeQuantum rest si
        if q.err ≠ none then some (out ++ q.out, q.err)
        else e.decodeLoop64 dstLen fuel1 q.rest q.nsi (out ++ q.out)
  else e.decodeLoop32 dstLen fuel rest si out

/-- Method `(Encoding).Decode` on a destination of `dstLen` bytes; the
result is `dst[:n]` with the error.  Every turn of its loops reads at least
one character, so `len(src)` turns are enough fuel. -/
def Encoding.Decode (e : Encoding) (dstLen : Nat) (src : List Nat) : Option Decoded :=
  if src.length = 0 then some ([], none)
  else e.decodeLoop64 dstLen src.length src 0 []

/-- Method `(Encoding).DecodeString`: `Decode` into a fresh buffer of
`DecodedLen(len(s))` bytes, returning `dbuf[:n], err`. -/
def Encoding.DecodeString (e : Encoding) (s : List Nat) : Option Decoded :=
  e.Decode (e.DecodedLen s.length) s

/-! ## The integer adapter -/

/-- Outcome of a Go call that can panic at run time. -/
inductive Run (α : Type) where
  | returns (v : α)
  | panics
  deriving DecidableEq, Repr

/-- Method `binary.BigEndian.Uint64`: panics (index out of range) on fewer
than eight bytes, otherwise reads the first eight. -/
def BigEndian.Uint64 : List Nat → Run Nat
  | b0 :: b1 :: b2 :: b3 :: b4 :: b5 :: b6 :: b7 :: _ =>
    Run.returns (b7 ||| b6 <<< 8 ||| b5 <<< 16 ||| b4 <<< 24 ||| b3 <<< 32 ||| b2 <<< 40
      ||| b1 <<< 48 ||| b0 <<< 56)
  | _ => Run.panics

/-- Method `binary.LittleEndian.Uint64`: panics (index out of range) on
fewer than eight bytes, otherwise reads the first eight. -/
def LittleEndian.Uint64 : List Nat → Run Nat
  | b0 :: b1 :: b2 :: b3 :: b4 :: b5 :: b6 :: b7 :: _ =>
    Run.returns (b0 ||| b1 <<< 8 ||| b2 <<< 16 ||| b3 <<< 24 ||| b4 <<< 32 ||| b5 <<< 40
      ||| b6 <<< 48 ||| b7 <<< 56)
  | _ => Run.panics

/-- Function `uintToBytes` of `base64.go`. -/
def uintToBytes (n : Nat) (littleEndian : Bool) : List Nat :=
  if littleEndian then LittleEndian.PutUint64 n else BigEndian.PutUint64 n

/-- Function `bytesToUint` of `base64.go`. -/
def bytesToUint (b : List Nat) (littleEndian : Bool) : Run Nat :=
  if littleEndian then LittleEndian.Uint64 b else BigEndian.Uint64 b

/-! ## The exported functions of `base64.go` -/

/-- Function `Encode` of `base64.go`. -/
def Encode (src : List Nat) : List Nat := stdPadding.EncodeToString src

/-- Function `Decode` of `base64.go`. -/
def Decode (s : List Nat) : Option Decoded := stdPadding.DecodeString s

/-- Function `EncodeNoPadding` of `base64.go`. -/
def EncodeNoPadding (src : List Nat) : List Nat := noPadding.EncodeToString src

/-- Function `DecodeNoPadding` of `base64.go`. -/
def DecodeNoPadding (s : List Nat) : Option Decoded := noPadding.DecodeString s

/-- Function `EncodeUint` of `base64.go`. -/
def EncodeUint (n : Nat) (littleEndian : Bool) : List Nat :=
  stdPadding.EncodeToString (uintToBytes n littleEndian)

/-- The statement `return bytesToUint(buf, littleEndian), err` shared by
`DecodeUint` and `DecodeUintNoPadding`: `bytesToUint` is evaluated whatever
`err` is. -/
def returnUint (r : Option Decoded) (littleEndian : Bool) :
    Option (Run (Nat × Option CorruptInputError)) :=
  match r with
  | none => none
  | some (buf, err) =>
    match bytesToUint buf littleEndian with
    | Run.panics => some Run.panics
    | Run.returns v => some (Run.returns (v, err))

/-- Function `DecodeUint` of `base64.go`. -/
def DecodeUint (s : List Nat) (littleEndian : Bool) :
    Option (Run (Nat × Option CorruptInputError)) :=
  returnUint (stdPadding.DecodeString s) littleEndian

/-- Function `EncodeUintNoPadding` of `base64.go`. -/
def EncodeUintNoPadding (n : Nat) (littleEndian : Bool) : List Nat :=
  noPadding.EncodeToString (uintToBytes n littleEndian)

/-- Function `DecodeUintNoPadding` of `base64.go`. -/
def DecodeUintNoPadding (s : List Nat) (littleEndian : Bool) :
    Option (Run (Nat × Option CorruptInputError)) :=
  returnUint (noPadding.DecodeString s) littleEndian

/-! ## Auxiliary definitions for the statements and proofs -/

/-- The 6-bit digits of a byte sequence, most significant bit first, the
last digit zero-extended on the right. -/
def digits : List Nat → List Nat
  | [] => []
  | [a] => [a / 4, a % 4 * 16]
  | [a, b] => [a / 4, a % 4 * 16 + b / 16, b % 16 * 4]
  | a :: b :: c :: rest =>
    a / 4 :: (a % 4 * 16 + b / 16) :: (b % 16 * 4 + c / 64) :: c % 64 :: digits rest

/-- Two sequences differ at a position that both have: neither is a prefix
of the other. -/
def differ : List Nat → List Nat → Bool
  | [], _ => false
  | _ :: _, [] => false
  | a :: as, b :: bs => (a != b) || differ as bs

/-- Number of padding characters after `n` bytes. -/
def padLen (n : Nat) : Nat := (3 - n % 3) % 3

/-- The number a byte sequence spells in base 256, most significant first. -/
def beVal : List Nat → Nat
  | [] => 0
  | b :: bs => b * 256 ^ bs.length + beVal bs

/-- Number of characters of a string other than `'\n'` and `'\r'`. -/
def significant (s : List Nat) : Nat := s.countP (fun c => c != 10 && c != 13)

/-- Bit `j` of the concatenated bits of `B`, most significant bit of each
byte first, and zero beyond the last byte. -/
def bitAt (B : List Nat) (j : Nat) : Nat := B.getD (j / 8) 0 / 2 ^ (7 - j % 8) % 2

/-- The 6-bit number formed by bits `6i .. 6i+5` of the concatenated bits of
`B`, most significant bit first, zero-extended on the right. -/
def sixBits (B : List Nat) (i : Nat) : Nat :=
  bitAt B (6 * i) * 32 + bitAt B (6 * i + 1) * 16 + bitAt B (6 * i + 2) * 8 +
    bitAt B (6 * i + 3) * 4 + bitAt B (6 * i + 4) * 2 + bitAt B (6 * i + 5)

/-! ## Facts about the tables and the bit arithmetic -/

theorem noPadding_enc (i : Nat) : noPadding.enc i = stdPadding.enc i := rfl
theorem noPadding_dec (c : Nat) : noPadding.dec c = stdPadding.dec c := rfl

theorem enc_table : ∀ i, i < 64 → stdPadding.enc i =
    (if i = 0 then 45 else if i ≤ 10 then i + 47 else if i ≤ 36 then i + 54
      else if i = 37 then 95 else i + 59) := by decide

theorem dec_enc_table : ∀ i, i < 64 → stdPadding.dec (stdPadding.enc i) = i := by decide

set_option maxRecDepth 100000 in
theorem dec_table : ∀ c, c < 256 → stdPadding.dec c =
    (if c = 45 then 0 else if 48 ≤ c ∧ c ≤ 57 then c - 47 else if 65 ≤ c ∧ c ≤ 90 then c - 54
      else if c = 95 then 37 else if 97 ≤ c ∧ c ≤ 122 then c - 59 else 255) := by decide

theorem enc_lt_iff (i j : Nat) (hi : i < 64) (hj : j < 64) :
    stdPadding.enc i < stdPadding.enc j ↔ i < j := by
  rw [enc_table i hi, enc_table j hj]; split_ifs <;> omega

theorem enc_eq_iff (i j : Nat) (hi : i < 64) (hj : j < 64) :
    stdPadding.enc i = stdPadding.enc j ↔ i = j := by
  rw [enc_table i hi, enc_table j hj]; split_ifs <;> omega

theorem or_eq_add_left (k x y : Nat) (hx : x % 2 ^ k = 0) (hy : y < 2 ^ k) :
    x ||| y = x + y := by
  obtain ⟨a, rfl⟩ : ∃ a, x = 2 ^ k * a := ⟨x / 2 ^ k, by
    have := Nat.div_add_mod x (2 ^ k); omega⟩
  exact (Nat.mul_add_lt_is_or hy a).symm

theorem or_eq_add_right (k x y : Nat) (hx : x < 2 ^ k) (hy : y % 2 ^ k = 0) :
    x ||| y = x + y := by
  rw [Nat.or_comm, or_eq_add_left k y x hy hx, Nat.add_comm]

theorem val3_eq (a b c : Nat) (_ : a < 256) (hb : b < 256) (hc : c < 256) :
    a <<< 16 ||| b <<< 8 ||| c = a * 65536 + b * 256 + c := by
  simp only [Nat.shiftLeft_eq]
  rw [or_eq_add_left 16 (a * 2 ^ 16) (b * 2 ^ 8) (by omega) (by omega),
    or_eq_add_left 8 _ c (by omega) (by omega)]


theorem val4_eq (d0 d1 d2 d3 : Nat) (_ : d0 < 64) (h1 : d1 < 64) (h2 : d2 < 64)
    (h3 : d3 < 64) :
    d0 <<< 18 ||| d1 <<< 12 ||| d2 <<< 6 ||| d3 = d0 * 262144 + d1 * 4096 + d2 * 64 + d3 := by
  simp only [Nat.shiftLeft_eq]
  rw [or_eq_add_left 18 (d0 * 2 ^ 18) (d1 * 2 ^ 12) (by omega) (by omega),
    or_eq_add_left 12 _ (d2 * 2 ^ 6) (by omega) (by omega),
    or_eq_add_left 6 _ d3 (by omega) (by omega)]

theorem and63 (x : Nat) : x &&& 63 = x % 64 := Nat.and_pow_two_sub_one_eq_mod x 6

theorem dec_enc_and (x : Nat) : stdPadding.dec (stdPadding.enc (x &&& 63)) = x % 64 := by
  rw [and63]; exact dec_enc_table _ (Nat.mod_lt _ (by decide))

theorem dec_pad : stdPadding.dec 61 = 255 := by decide

theorem stdPadding_padChar : stdPadding.padChar = 61 := rfl
theorem stdPadding_strict : stdPadding.strict = false := rfl
theorem noPadding_padChar : noPadding.padChar = -1 := rfl
theorem noPadding_strict : noPadding.strict = false := rfl

theorem scan_full (e : Encoding) (rest dbuf : List Nat) (si : Nat) :
    e.scan rest 4 dbuf si = Scan.brk dbuf 4 rest si none := by
  cases rest <;> simp [Encoding.scan]

theorem scan_valid (e : Encoding) (c : Nat) (rest : List Nat) (j : Nat) (dbuf : List Nat)
    (si : Nat) (hj : j < 4) (hc : e.dec c < 64) :
    e.scan (c :: rest) j dbuf si = e.scan rest (j + 1) (dbuf.set j (e.dec c)) (si + 1) := by
  have h1 : ¬ (4 ≤ j) := by omega
  have h2 : e.dec c ≠ 255 := by omega
  simp [Encoding.scan, h1, h2]

/-- The value assembled by `decodeQuantum` from four 6-bit digits and its
three bytes. -/
theorem quantum_bytes (d0 d1 d2 d3 : Nat) (h0 : d0 < 64) (h1 : d1 < 64) (h2 : d2 < 64)
    (h3 : d3 < 64) :
    (d0 <<< 18 ||| d1 <<< 12 ||| d2 <<< 6 ||| d3) >>> 16 % 256 = d0 * 4 + d1 / 16 ∧
    (d0 <<< 18 ||| d1 <<< 12 ||| d2 <<< 6 ||| d3) >>> 8 % 256 = d1 % 16 * 16 + d2 / 4 ∧
    (d0 <<< 18 ||| d1 <<< 12 ||| d2 <<< 6 ||| d3) % 256 = d2 % 4 * 64 + d3 := by
  rw [val4_eq d0 d1 d2 d3 h0 h1 h2 h3]
  simp only [Nat.shiftRight_eq_div_pow]
  refine ⟨?_, ?_, ?_⟩ <;> omega

/-- A quantum of four alphabet characters decodes to three bytes. -/
theorem decodeQuantum_valid4 (e : Encoding) (c0 c1 c2 c3 : Nat) (rest : List Nat) (si : Nat)
    (h0 : e.dec c0 < 64) (h1 : e.dec c1 < 64) (h2 : e.dec c2 < 64) (h3 : e.dec c3 < 64) :
    e.decodeQuantum (c0 :: c1 :: c2 :: c3 :: rest) si =
      ⟨rest, si + 4, [e.dec c0 * 4 + e.dec c1 / 16, e.dec c1 % 16 * 16 + e.dec c2 / 4,
        e.dec c2 % 4 * 64 + e.dec c3], none⟩ := by
  obtain ⟨q0, q1, q2⟩ := quantum_bytes _ _ _ _ h0 h1 h2 h3
  simp only [Encoding.decodeQuantum]
  rw [scan_valid e c0 _ 0 _ _ (by omega) h0, scan_valid e c1 _ 1 _ _ (by omega) h1,
    scan_valid e c2 _ 2 _ _ (by omega) h2, scan_valid e c3 _ 3 _ _ (by omega) h3, scan_full]
  simp only [List.set_cons_zero, List.set_cons_succ, List.getD_cons_zero, List.getD_cons_succ,
    q0, q1, q2]

/-- A padded final quantum of three alphabet characters decodes to two bytes. -/
theorem decodeQuantum_valid3_std (c0 c1 c2 : Nat) (si : Nat)
    (h0 : stdPadding.dec c0 < 64) (h1 : stdPadding.dec c1 < 64) (h2 : stdPadding.dec c2 < 64) :
    stdPadding.decodeQuantum [c0, c1, c2, 61] si =
      ⟨[], si + 4, [stdPadding.dec c0 * 4 + stdPadding.dec c1 / 16,
        stdPadding.dec c1 % 16 * 16 + stdPadding.dec c2 / 4], none⟩ := by
  obtain ⟨q0, q1, _⟩ := quantum_bytes _ _ _ 0 h0 h1 h2 (by omega)
  simp only [Nat.or_zero, Nat.zero_shiftLeft] at q0 q1
  simp only [Encoding.decodeQuantum]
  rw [scan_valid _ c0 _ 0 _ _ (by omega) h0, scan_valid _ c1 _ 1 _ _ (by omega) h1,
    scan_valid _ c2 _ 2 _ _ (by omega) h2]
  simp [Encoding.scan, dec_pad, stdPadding_padChar, stdPadding_strict, skipNewlines, q0, q1]

/-- A padded final quantum of two alphabet characters decodes to one byte. -/
theorem decodeQuantum_valid2_std (c0 c1 : Nat) (si : Nat)
    (h0 : stdPadding.dec c0 < 64) (h1 : stdPadding.dec c1 < 64) :
    stdPadding.decodeQuantum [c0, c1, 61, 61] si =
      ⟨[], si + 4, [stdPadding.dec c0 * 4 + stdPadding.dec c1 / 16], none⟩ := by
  obtain ⟨q0, _, _⟩ := quantum_bytes _ _ 0 0 h0 h1 (by omega) (by omega)
  simp only [Nat.or_zero, Nat.zero_shiftLeft] at q0
  simp only [Encoding.decodeQuantum]
  rw [scan_valid _ c0 _ 0 _ _ (by omega) h0, scan_valid _ c1 _ 1 _ _ (by omega) h1]
  simp [Encoding.scan, dec_pad, stdPadding_padChar, stdPadding_strict, skipNewlines, q0]

/-- An unpadded final quantum of three alphabet characters decodes to two bytes. -/
theorem decodeQuantum_valid3_no (c0 c1 c2 : Nat) (si : Nat)
    (h0 : noPadding.dec c0 < 64) (h1 : noPadding.dec c1 < 64) (h2 : noPadding.dec c2 < 64) :
    noPadding.decodeQuantum [c0, c1, c2] si =
      ⟨[], si + 3, [noPadding.dec c0 * 4 + noPadding.dec c1 / 16,
        noPadding.dec c1 % 16 * 16 + noPadding.dec c2 / 4], none⟩ := by
  obtain ⟨q0, q1, _⟩ := quantum_bytes _ _ _ 0 h0 h1 h2 (by omega)
  simp only [Nat.or_zero, Nat.zero_shiftLeft] at q0 q1
  simp only [Encoding.decodeQuantum]
  rw [scan_valid _ c0 _ 0 _ _ (by omega) h0, scan_valid _ c1 _ 1 _ _ (by omega) h1,
    scan_valid _ c2 _ 2 _ _ (by omega) h2]
  simp [Encoding.scan, noPadding_padChar, noPadding_strict, NoPadding, q0, q1]

/-- An unpadded final quantum of two alphabet characters decodes to one byte. -/
theorem decodeQuantum_valid2_no (c0 c1 : Nat) (si : Nat)
    (h0 : noPadding.dec c0 < 64) (h1 : noPadding.dec c1 < 64) :
    noPadding.decodeQuantum [c0, c1] si =
      ⟨[], si + 2, [noPadding.dec c0 * 4 + noPadding.dec c1 / 16], none⟩ := by
  obtain ⟨q0, _, _⟩ := quantum_bytes _ _ 0 0 h0 h1 (by omega) (by omega)
  simp only [Nat.or_zero, Nat.zero_shiftLeft] at q0
  simp only [Encoding.decodeQuantum]
  rw [scan_valid _ c0 _ 0 _ _ (by omega) h0, scan_valid _ c1 _ 1 _ _ (by omega) h1]
  simp [Encoding.scan, noPadding_padChar, noPadding_strict, NoPadding, q0]


theorem dec_enc_lt (x : Nat) : stdPadding.dec (stdPadding.enc (x &&& 63)) < 64 := by
  rw [dec_enc_and]; omega

/-- Byte-level reading of the digits of a three-byte group. -/
theorem group_digits (a b c : Nat) (ha : a < 256) (hb : b < 256) (hc : c < 256) :
    (a <<< 16 ||| b <<< 8 ||| c) >>> 18 % 64 = a / 4 ∧
    (a <<< 16 ||| b <<< 8 ||| c) >>> 12 % 64 = a % 4 * 16 + b / 16 ∧
    (a <<< 16 ||| b <<< 8 ||| c) >>> 6 % 64 = b % 16 * 4 + c / 64 ∧
    (a <<< 16 ||| b <<< 8 ||| c) % 64 = c % 64 := by
  rw [val3_eq a b c ha hb hc]
  simp only [Nat.shiftRight_eq_div_pow]
  refine ⟨?_, ?_, ?_, ?_⟩ <;> omega

/-- The characters `Encode` emits for a whole three-byte group. -/
theorem Encode_cons3 (e : Encoding) (a b c : Nat) (rest : List Nat) (ha : a < 256)
    (hb : b < 256) (hc : c < 256) :
    e.Encode (a :: b :: c :: rest) =
      e.enc (a / 4) :: e.enc (a % 4 * 16 + b / 16) :: e.enc (b % 16 * 4 + c / 64) ::
        e.enc (c % 64) :: e.Encode rest := by
  obtain ⟨g0, g1, g2, g3⟩ := group_digits a b c ha hb hc
  simp only [Encoding.Encode, Nat.reduceAdd]
  rw [show (0x3F : Nat) = 63 from rfl, and63, and63, and63, and63, g0, g1, g2, g3]

/-- The characters `Encode` emits for a final group of two bytes. -/
theorem Encode_two (e : Encoding) (a b : Nat) (ha : a < 256) (hb : b < 256) :
    e.Encode [a, b] =
      e.enc (a / 4) :: e.enc (a % 4 * 16 + b / 16) :: e.enc (b % 16 * 4) ::
        (if e.padChar ≠ NoPadding then [e.padChar.toNat % 256] else []) := by
  obtain ⟨g0, g1, g2, _⟩ := group_digits a b 0 ha hb (by omega)
  simp only [Nat.or_zero, Nat.zero_div, Nat.add_zero] at g0 g1 g2
  simp only [Encoding.Encode]
  rw [show (0x3F : Nat) = 63 from rfl, and63, and63, and63, g0, g1, g2]

/-- The characters `Encode` emits for a final group of one byte. -/
theorem Encode_one (e : Encoding) (a : Nat) (ha : a < 256) :
    e.Encode [a] =
      e.enc (a / 4) :: e.enc (a % 4 * 16) ::
        (if e.padChar ≠ NoPadding then [e.padChar.toNat % 256, e.padChar.toNat % 256]
          else []) := by
  obtain ⟨g0, g1, _, _⟩ := group_digits a 0 0 ha (by omega) (by omega)
  simp only [Nat.or_zero, Nat.zero_div, Nat.add_zero, Nat.zero_shiftLeft] at g0 g1
  simp only [Encoding.Encode]
  rw [show (0x3F : Nat) = 63 from rfl, and63, and63, g0, g1]


/-- One quantum undoes one whole group of `Encode`. -/
theorem decodeQuantum_Encode_cons3 (e : Encoding) (he : e = stdPadding ∨ e = noPadding)
    (a b c : Nat) (rest : List Nat) (ha : a < 256) (hb : b < 256) (hc : c < 256) (si : Nat) :
    e.decodeQuantum (e.Encode (a :: b :: c :: rest)) si =
      ⟨e.Encode rest, si + 4, [a, b, c], none⟩ := by
  have hd : ∀ i, i < 64 → e.dec (e.enc i) = i := by
    rcases he with rfl | rfl <;> exact dec_enc_table
  have d0 := hd (a / 4) (by omega)
  have d1 := hd (a % 4 * 16 + b / 16) (by omega)
  have d2 := hd (b % 16 * 4 + c / 64) (by omega)
  have d3 := hd (c % 64) (by omega)
  rw [Encode_cons3 e a b c rest ha hb hc,
    decodeQuantum_valid4 e _ _ _ _ _ _ (by omega) (by omega) (by omega) (by omega),
    d0, d1, d2, d3]
  simp only [Quantum.mk.injEq, List.cons.injEq, and_true, true_and]
  refine ⟨?_, ?_, ?_⟩ <;> omega

/-- One quantum undoes a final group of two bytes. -/
theorem decodeQuantum_Encode_two (e : Encoding) (he : e = stdPadding ∨ e = noPadding)
    (a b : Nat) (ha : a < 256) (hb : b < 256) (si : Nat) :
    ∃ nsi, e.decodeQuantum (e.Encode [a, b]) si = ⟨[], nsi, [a, b], none⟩ := by
  have d0 := dec_enc_table (a / 4) (by omega)
  have d1 := dec_enc_table (a % 4 * 16 + b / 16) (by omega)
  have d2 := dec_enc_table (b % 16 * 4) (by omega)
  rcases he with rfl | rfl
  · refine ⟨si + 4, ?_⟩
    rw [Encode_two _ a b ha hb]
    simp only [stdPadding_padChar, NoPadding]
    rw [if_pos (by decide), show (61 : Int).toNat % 256 = 61 from rfl,
      decodeQuantum_valid3_std _ _ _ _ (by omega) (by omega) (by omega), d0, d1, d2]
    simp only [Quantum.mk.injEq, List.cons.injEq, and_true, true_and]
    refine ⟨?_, ?_⟩ <;> omega
  · refine ⟨si + 3, ?_⟩
    rw [Encode_two _ a b ha hb]
    simp only [noPadding_padChar, NoPadding]
    rw [if_neg (by decide)]
    have d0 : noPadding.dec (noPadding.enc (a / 4)) = a / 4 := d0
    have d1 : noPadding.dec (noPadding.enc (a % 4 * 16 + b / 16)) = a % 4 * 16 + b / 16 := d1
    have d2 : noPadding.dec (noPadding.enc (b % 16 * 4)) = b % 16 * 4 := d2
    rw [decodeQuantum_valid3_no _ _ _ _ (by omega) (by omega) (by omega), d0, d1, d2]
    simp only [Quantum.mk.injEq, List.cons.injEq, and_true, true_and]
    refine ⟨?_, ?_⟩ <;> omega

/-- One quantum undoes a final group of one byte. -/
theorem decodeQuantum_Encode_one (e : Encoding) (he : e = stdPadding ∨ e = noPadding)
    (a : Nat) (ha : a < 256) (si : Nat) :
    ∃ nsi, e.decodeQuantum (e.Encode [a]) si = ⟨[], nsi, [a], none⟩ := by
  have d0 := dec_enc_table (a / 4) (by omega)
  have d1 := dec_enc_table (a % 4 * 16) (by omega)
  rcases he with rfl | rfl
  · refine ⟨si + 4, ?_⟩
    rw [Encode_one _ a ha]
    simp only [stdPadding_padChar, NoPadding]
    rw [if_pos (by decide), show (61 : Int).toNat % 256 = 61 from rfl,
      decodeQuantum_valid2_std _ _ _ (by omega) (by omega), d0, d1]
    simp only [Quantum.mk.injEq, List.cons.injEq, and_true, true_and]
    omega
  · refine ⟨si + 2, ?_⟩
    rw [Encode_one _ a ha]
    simp only [noPadding_padChar, NoPadding]
    rw [if_neg (by decide)]
    have d0 : noPadding.dec (noPadding.enc (a / 4)) = a / 4 := d0
    have d1 : noPadding.dec (noPadding.enc (a % 4 * 16)) = a % 4 * 16 := d1
    rw [decodeQuantum_valid2_no _ _ _ (by omega) (by omega), d0, d1]
    simp only [Quantum.mk.injEq, List.cons.injEq, and_true, true_and]
    omega

theorem Encode_length_cons3 (e : Encoding) (a b c : Nat) (rest : List Nat) :
    (e.Encode (a :: b :: c :: rest)).length = (e.Encode rest).length + 4 := by
  simp [Encoding.Encode]

theorem Encode_length_pos (e : Encoding) (a : Nat) (rest : List Nat) :
    0 < (e.Encode (a :: rest)).length := by
  match rest with
  | [] => simp [Encoding.Encode]
  | [b] => simp [Encoding.Encode]
  | b :: c :: r => simp [Encoding.Encode]

/-! ## Termination of the decoding loops -/

theorem skipNewlines_length (r : List Nat) (si : Nat) :
    (skipNewlines r si).1.length ≤ r.length := by
  induction r generalizing si with
  | nil => simp [skipNewlines]
  | cons c r ih =>
    simp only [skipNewlines]
    split
    · exact Nat.le_succ_of_le (ih _)
    · simp

/-- After a padding character the loop of `decodeQuantum` only moves forward. -/
theorem scan_pad_unread_le (e : Encoding) (r : List Nat) (j : Nat) (dbuf : List Nat)
    (si1 : Nat) :
    (if j = 2 then
        match skipNewlines r si1 with
        | ([], si2) => Scan.ret [] si2 (some ⟨(si2 : Int)⟩)
        | (d :: rest3, si2) =>
          if (d : Int) ≠ e.padChar then
            Scan.ret (d :: rest3) si2 (some ⟨(si2 : Int) - 1⟩)
          else
            match skipNewlines rest3 (si2 + 1) with
            | ([], si4) => Scan.brk dbuf j [] si4 none
            | (r4, si4) => Scan.brk dbuf j r4 si4 (some ⟨(si4 : Int)⟩)
      else
        match skipNewlines r si1 with
        | ([], si4) => Scan.brk dbuf j [] si4 none
        | (r4, si4) => Scan.brk dbuf j r4 si4 (some ⟨(si4 : Int)⟩)).unread.length
      ≤ r.length := by
  have h1 := skipNewlines_length r si1
  rcases hs : skipNewlines r si1 with ⟨l, s2⟩
  rw [hs] at h1
  cases l with
  | nil => split_ifs <;> simp [Scan.unread]
  | cons d rest3 =>
    have h2 := skipNewlines_length rest3 (s2 + 1)
    simp only [List.length_cons] at h1
    by_cases hj : j = 2
    · rw [if_pos hj]
      simp only []
      by_cases hd : (d : Int) ≠ e.padChar
      · rw [if_pos hd]; simp only [Scan.unread, List.length_cons]; omega
      · rw [if_neg hd]
        rcases hs2 : skipNewlines rest3 (s2 + 1) with ⟨l2, s4⟩
        rw [hs2] at h2
        cases l2 with
        | nil => simp [Scan.unread]
        | cons d2 r4 =>
          simp only [List.length_cons] at h2
          simp only [Scan.unread, List.length_cons]; omega
    · rw [if_neg hj]
      simp only [Scan.unread, List.length_cons]; omega

theorem scan_unread_le (e : Encoding) (rest : List Nat) :
    ∀ (j : Nat) (dbuf : List Nat) (si : Nat),
      (e.scan rest j dbuf si).unread.length ≤ rest.length := by
  induction rest with
  | nil =>
    intro j dbuf si
    rw [Encoding.scan.eq_def]
    by_cases h4 : 4 ≤ j
    · simp [h4, Scan.unread]
    · by_cases h0 : j = 0
      · simp [h0, Scan.unread]
      · by_cases h1 : j = 1 ∨ e.padChar ≠ NoPadding
        · simp only [h4, h0, h1, if_true, if_false, Scan.unread, le_refl]
        · simp only [h4, h0, h1, if_false, Scan.unread, le_refl]
  | cons c r ih =>
    intro j dbuf si
    rw [Encoding.scan.eq_def]
    by_cases h4 : 4 ≤ j
    · simp [h4, Scan.unread]
    simp only [h4, if_false]
    by_cases hv : e.dec c ≠ 255
    · rw [if_pos hv]; exact Nat.le_succ_of_le (ih _ _ _)
    rw [if_neg hv]
    by_cases hn : c = 10 ∨ c = 13
    · rw [if_pos hn]; exact Nat.le_succ_of_le (ih _ _ _)
    rw [if_neg hn]
    by_cases hp : (c : Int) ≠ e.padChar
    · rw [if_pos hp]; simp [Scan.unread]
    rw [if_neg hp]
    by_cases h01 : j = 0 ∨ j = 1
    · rw [if_pos h01]; simp [Scan.unread]
    rw [if_neg h01]
    exact Nat.le_succ_of_le (scan_pad_unread_le e r j dbuf (si + 1))

/-- Below four collected digits the loop of `decodeQuantum` reads at least
one character. -/
theorem scan_cons_unread_le (e : Encoding) (c : Nat) (r : List Nat) (j : Nat)
    (dbuf : List Nat) (si : Nat) (hj : j < 4) :
    (e.scan (c :: r) j dbuf si).unread.length ≤ r.length := by
  rw [Encoding.scan.eq_def]
  have h4 : ¬ (4 ≤ j) := by omega
  simp only [h4, if_false]
  by_cases hv : e.dec c ≠ 255
  · rw [if_pos hv]; exact scan_unread_le e r _ _ _
  rw [if_neg hv]
  by_cases hn : c = 10 ∨ c = 13
  · rw [if_pos hn]; exact scan_unread_le e r _ _ _
  rw [if_neg hn]
  by_cases hp : (c : Int) ≠ e.padChar
  · rw [if_pos hp]; simp [Scan.unread]
  rw [if_neg hp]
  by_cases h01 : j = 0 ∨ j = 1
  · rw [if_pos h01]; simp [Scan.unread]
  rw [if_neg h01]
  exact scan_pad_unread_le e r j dbuf (si + 1)

theorem decodeQuantum_rest (e : Encoding) (rest : List Nat) (si : Nat) :
    (e.decodeQuantum rest si).rest = (e.scan rest 0 [0, 0, 0, 0] si).unread := by
  unfold Encoding.decodeQuantum
  cases e.scan rest 0 [0, 0, 0, 0] si with
  | ret r s err => rfl
  | brk dbuf dlen r s err =>
    simp only [Scan.unread]
    split
    · rfl
    · split <;> rfl
    · split <;> rfl
    · rfl

/-- Every `decodeQuantum` on non-empty input reads at least one character. -/
theorem decodeQuantum_rest_lt (e : Encoding) (rest : List Nat) (si : Nat)
    (h : 0 < rest.length) : (e.decodeQuantum rest si).rest.length < rest.length := by
  cases rest with
  | nil => simp at h
  | cons c r =>
    rw [decodeQuantum_rest]
    exact Nat.lt_succ_of_le (scan_cons_unread_le e c r 0 _ si (by omega))


theorem decodeTail_nil (e : Encoding) (fuel si : Nat) (out : List Nat) :
    e.decodeTail fuel [] si out = some (out, none) := by
  rw [Encoding.decodeTail.eq_def]; simp

theorem decodeTail_step (e : Encoding) (f si : Nat) (rest out : List Nat)
    (h : 0 < rest.length) :
    e.decodeTail (f + 1) rest si out =
      if (e.decodeQuantum rest si).err ≠ none then
        some (out ++ (e.decodeQuantum rest si).out, (e.decodeQuantum rest si).err)
      else e.decodeTail f (e.decodeQuantum rest si).rest (e.decodeQuantum rest si).nsi
        (out ++ (e.decodeQuantum rest si).out) := by
  rw [Encoding.decodeTail.eq_def, if_neg (by omega)]

/-- Fuel beyond the length of the unread input changes nothing. -/
theorem decodeTail_fuel_succ (e : Encoding) :
    ∀ (f : Nat) (rest : List Nat) (si : Nat) (out : List Nat), rest.length ≤ f →
      e.decodeTail (f + 1) rest si out = e.decodeTail f rest si out := by
  intro f
  induction f with
  | zero =>
    intro rest si out h
    have : rest = [] := List.eq_nil_of_length_eq_zero (by omega)
    subst this
    simp [decodeTail_nil]
  | succ f ih =>
    intro rest si out h
    by_cases h0 : 0 < rest.length
    · have hq := decodeQuantum_rest_lt e rest si h0
      rw [decodeTail_step e (f + 1) si rest out h0, decodeTail_step e f si rest out h0,
        ih _ _ _ (by omega)]
    · have : rest = [] := List.eq_nil_of_length_eq_zero (by omega)
      subst this
      simp [decodeTail_nil]

theorem decodeTail_fuel (e : Encoding) (f g : Nat) (rest : List Nat) (si : Nat)
    (out : List Nat) (h : rest.length ≤ f) (hg : f ≤ g) :
    e.decodeTail g rest si out = e.decodeTail f rest si out := by
  induction g with
  | zero =>
    have : f = 0 := by omega
    subst this; rfl
  | succ g ih =>
    by_cases hfg : f = g + 1
    · subst hfg; rfl
    · rw [decodeTail_fuel_succ e g rest si out (by omega), ih (by omega)]

/-- With the length of the unread input as fuel the third loop returns. -/
theorem decodeTail_isSome (e : Encoding) :
    ∀ (f : Nat) (rest : List Nat) (si : Nat) (out : List Nat), rest.length ≤ f →
      (e.decodeTail f rest si out).isSome = true := by
  intro f
  induction f with
  | zero =>
    intro rest si out h
    have : rest = [] := List.eq_nil_of_length_eq_zero (by omega)
    subst this
    simp [decodeTail_nil]
  | succ f ih =>
    intro rest si out h
    by_cases h0 : 0 < rest.length
    · have hq := decodeQuantum_rest_lt e rest si h0
      rw [decodeTail_step e f si rest out h0]
      split
      · rfl
      · exact ih _ _ _ (by omega)
    · have : rest = [] := List.eq_nil_of_length_eq_zero (by omega)
      subst this
      simp [decodeTail_nil]

/-! ## The fast paths of `Decode` -/

set_option maxRecDepth 100000 in
theorem or_255 : ∀ x, x < 256 → x ||| 255 = 255 ∧ 255 ||| x = 255 := by decide

/-- Table values are 6-bit digits or the marker `0xFF`; so is their
bitwise or, which is `0xFF` exactly when one of them is. -/
theorem or_digit (x y : Nat) (hx : x < 64 ∨ x = 255) (hy : y < 64 ∨ y = 255) :
    (x < 64 ∧ y < 64 ∧ x ||| y < 64) ∨ ((x = 255 ∨ y = 255) ∧ x ||| y = 255) := by
  rcases hx with hx | hx <;> rcases hy with hy | hy
  · exact Or.inl ⟨hx, hy, Nat.or_lt_two_pow (n := 6) hx hy⟩
  · subst hy; exact Or.inr ⟨Or.inr rfl, (or_255 x (by omega)).1⟩
  · subst hx; exact Or.inr ⟨Or.inl rfl, (or_255 y (by omega)).2⟩
  · subst hx; subst hy; exact Or.inr ⟨Or.inl rfl, by decide⟩

set_option maxRecDepth 100000 in
theorem stdPadding_decodeMap_length : stdPadding.decodeMap.length = 256 := by decide

/-- Every entry of the inverse table is a 6-bit digit or `0xFF`. -/
theorem dec_digit (e : Encoding) (he : e = stdPadding ∨ e = noPadding) (c : Nat) :
    e.dec c < 64 ∨ e.dec c = 255 := by
  have h : stdPadding.dec c < 64 ∨ stdPadding.dec c = 255 := by
    by_cases hc : c < 256
    · rw [dec_table c hc]; split_ifs <;> omega
    · right
      unfold Encoding.dec
      exact List.getD_eq_default _ _ (by rw [stdPadding_decodeMap_length]; omega)
  rcases he with rfl | rfl
  · exact h
  · exact h

theorem assemble32_some_lt (d0 d1 d2 d3 dn : Nat) (h0 : d0 < 64 ∨ d0 = 255)
    (h1 : d1 < 64 ∨ d1 = 255) (h2 : d2 < 64 ∨ d2 = 255) (h3 : d3 < 64 ∨ d3 = 255)
    (h : assemble32 d0 d1 d2 d3 = some dn) : d0 < 64 ∧ d1 < 64 ∧ d2 < 64 ∧ d3 < 64 := by
  unfold assemble32 at h
  split at h
  · exact absurd h (by simp)
  · rename_i hne
    have a1 := or_digit d0 d1 h0 h1
    have a2 := or_digit (d0 ||| d1) d2 (by omega) h2
    have a3 := or_digit (d0 ||| d1 ||| d2) d3 (by omega) h3
    omega

theorem assemble32_bytes (d0 d1 d2 d3 dn : Nat) (h0 : d0 < 64) (h1 : d1 < 64) (h2 : d2 < 64)
    (h3 : d3 < 64) (h : assemble32 d0 d1 d2 d3 = some dn) :
    (BigEndian.PutUint32 dn).take 3 =
      [d0 * 4 + d1 / 16, d1 % 16 * 16 + d2 / 4, d2 % 4 * 64 + d3] := by
  unfold assemble32 at h
  split at h
  · exact absurd h (by simp)
  · simp only [Option.some.injEq, Nat.shiftLeft_eq] at h
    rw [or_eq_add_left 26 (d0 * 2 ^ 26 % 2 ^ 32) (d1 * 2 ^ 20 % 2 ^ 32) (by omega) (by omega),
      or_eq_add_left 20 _ (d2 * 2 ^ 14 % 2 ^ 32) (by omega) (by omega),
      or_eq_add_left 14 _ (d3 * 2 ^ 8 % 2 ^ 32) (by omega) (by omega)] at h
    subst h
    simp only [BigEndian.PutUint32, Nat.shiftRight_eq_div_pow, List.take_succ_cons,
      List.take_zero, List.cons.injEq, and_true]
    refine ⟨?_, ?_, ?_⟩ <;> omega

theorem assemble64_some_lt (d0 d1 d2 d3 d4 d5 d6 d7 dn : Nat) (h0 : d0 < 64 ∨ d0 = 255)
    (h1 : d1 < 64 ∨ d1 = 255) (h2 : d2 < 64 ∨ d2 = 255) (h3 : d3 < 64 ∨ d3 = 255)
    (h4 : d4 < 64 ∨ d4 = 255) (h5 : d5 < 64 ∨ d5 = 255) (h6 : d6 < 64 ∨ d6 = 255)
    (h7 : d7 < 64 ∨ d7 = 255)
    (h : assemble64 d0 d1 d2 d3 d4 d5 d6 d7 = some dn) :
    (d0 < 64 ∧ d1 < 64 ∧ d2 < 64 ∧ d3 < 64) ∧ d4 < 64 ∧ d5 < 64 ∧ d6 < 64 ∧ d7 < 64 := by
  unfold assemble64 at h
  split at h
  · exact absurd h (by simp)
  · rename_i hne
    have a1 := or_digit d0 d1 h0 h1
    have a2 := or_digit (d0 ||| d1) d2 (by omega) h2
    have a3 := or_digit (d0 ||| d1 ||| d2) d3 (by omega) h3
    have a4 := or_digit (d0 ||| d1 ||| d2 ||| d3) d4 (by omega) h4
    have a5 := or_digit (d0 ||| d1 ||| d2 ||| d3 ||| d4) d5 (by omega) h5
    have a6 := or_digit (d0 ||| d1 ||| d2 ||| d3 ||| d4 ||| d5) d6 (by omega) h6
    have a7 := or_digit (d0 ||| d1 ||| d2 ||| d3 ||| d4 ||| d5 ||| d6) d7 (by omega) h7
    omega

theorem assemble64_bytes (d0 d1 d2 d3 d4 d5 d6 d7 dn : Nat) (h0 : d0 < 64) (h1 : d1 < 64)
    (h2 : d2 < 64) (h3 : d3 < 64) (h4 : d4 < 64) (h5 : d5 < 64) (h6 : d6 < 64) (h7 : d7 < 64)
    (h : assemble64 d0 d1 d2 d3 d4 d5 d6 d7 = some dn) :
    (BigEndian.PutUint64 dn).take 6 =
      [d0 * 4 + d1 / 16, d1 % 16 * 16 + d2 / 4, d2 % 4 * 64 + d3] ++
      [d4 * 4 + d5 / 16, d5 % 16 * 16 + d6 / 4, d6 % 4 * 64 + d7] := by
  unfold assemble64 at h
  split at h
  · exact absurd h (by simp)
  · simp only [Option.some.injEq, Nat.shiftLeft_eq] at h
    rw [or_eq_add_left 58 (d0 * 2 ^ 58 % 2 ^ 64) (d1 * 2 ^ 52 % 2 ^ 64) (by omega) (by omega),
      or_eq_add_left 52 _ (d2 * 2 ^ 46 % 2 ^ 64) (by omega) (by omega),
      or_eq_add_left 46 _ (d3 * 2 ^ 40 % 2 ^ 64) (by omega) (by omega),
      or_eq_add_left 40 _ (d4 * 2 ^ 34 % 2 ^ 64) (by omega) (by omega),
      or_eq_add_left 34 _ (d5 * 2 ^ 28 % 2 ^ 64) (by omega) (by omega),
      or_eq_add_left 28 _ (d6 * 2 ^ 22 % 2 ^ 64) (by omega) (by omega),
      or_eq_add_left 22 _ (d7 * 2 ^ 16 % 2 ^ 64) (by omega) (by omega)] at h
    subst h
    simp only [BigEndian.PutUint64, Nat.shiftRight_eq_div_pow, List.take_succ_cons,
      List.take_zero, List.cons.injEq, and_true, List.cons_append, List.nil_append]
    refine ⟨?_, ?_, ?_, ?_, ?_, ?_⟩ <;> omega

theorem decodeLoop32_else (e : Encoding) (dstLen fuel : Nat) (rest : List Nat) (si : Nat)
    (out : List Nat) (h : ¬ (4 ≤ rest.length ∧ 4 ≤ dstLen - out.length)) :
    e.decodeLoop32 dstLen fuel rest si out = e.decodeTail fuel rest si out := by
  rw [Encoding.decodeLoop32.eq_def, if_neg h]

theorem decodeLoop32_then (e : Encoding) (dstLen f : Nat) (c0 c1 c2 c3 : Nat) (r : List Nat)
    (si : Nat) (out : List Nat)
    (h : 4 ≤ (c0 :: c1 :: c2 :: c3 :: r).length ∧ 4 ≤ dstLen - out.length) :
    e.decodeLoop32 dstLen (f + 1) (c0 :: c1 :: c2 :: c3 :: r) si out =
      match assemble32 (e.dec c0) (e.dec c1) (e.dec c2) (e.dec c3) with
      | some dn =>
        e.decodeLoop32 dstLen f r (si + 4) (out ++ (BigEndian.PutUint32 dn).take 3)
      | none =>
        if (e.decodeQuantum (c0 :: c1 :: c2 :: c3 :: r) si).err ≠ none then
          some (out ++ (e.decodeQuantum (c0 :: c1 :: c2 :: c3 :: r) si).out,
            (e.decodeQuantum (c0 :: c1 :: c2 :: c3 :: r) si).err)
        else e.decodeLoop32 dstLen f (e.decodeQuantum (c0 :: c1 :: c2 :: c3 :: r) si).rest
          (e.decodeQuantum (c0 :: c1 :: c2 :: c3 :: r) si).nsi
          (out ++ (e.decodeQuantum (c0 :: c1 :: c2 :: c3 :: r) si).out) := by
  rw [Encoding.decodeLoop32.eq_def, if_pos h]
  rfl

/-- The second loop of `Decode` computes what the third loop alone computes. -/
theorem decodeLoop32_eq (e : Encoding) (he : e = stdPadding ∨ e = noPadding) (dstLen : Nat) :
    ∀ (f : Nat) (rest : List Nat) (si : Nat) (out : List Nat), rest.length ≤ f →
      e.decodeLoop32 dstLen f rest si out = e.decodeTail f rest si out := by
  intro f
  induction f with
  | zero =>
    intro rest si out h
    exact decodeLoop32_else e dstLen 0 rest si out (by omega)
  | succ f ih =>
    intro rest si out h
    by_cases hc : 4 ≤ rest.length ∧ 4 ≤ dstLen - out.length
    · match rest, h, hc with
      | c0 :: c1 :: c2 :: c3 :: r, h, hc =>
        have hpos : 0 < (c0 :: c1 :: c2 :: c3 :: r).length := by simp
        have hlt := decodeQuantum_rest_lt e _ si hpos
        simp only [List.length_cons] at h hlt
        rw [decodeLoop32_then e dstLen f c0 c1 c2 c3 r si out hc, decodeTail_step e f si _ out hpos]
        cases ha : assemble32 (e.dec c0) (e.dec c1) (e.dec c2) (e.dec c3) with
        | none =>
          dsimp only
          rw [ih _ _ _ (by omega)]
        | some dn =>
          obtain ⟨h0, h1, h2, h3⟩ := assemble32_some_lt _ _ _ _ dn (dec_digit e he c0)
            (dec_digit e he c1) (dec_digit e he c2) (dec_digit e he c3) ha
          dsimp only
          rw [assemble32_bytes _ _ _ _ dn h0 h1 h2 h3 ha,
            decodeQuantum_valid4 e c0 c1 c2 c3 r si h0 h1 h2 h3, ih _ _ _ (by omega)]
          simp
    · exact decodeLoop32_else e dstLen _ rest si out hc


theorem decodeLoop64_else (e : Encoding) (dstLen fuel : Nat) (rest : List Nat) (si : Nat)
    (out : List Nat) (h : ¬ (64 ≤ intSize ∧ 8 ≤ rest.length ∧ 8 ≤ dstLen - out.length)) :
    e.decodeLoop64 dstLen fuel rest si out = e.decodeLoop32 dstLen fuel rest si out := by
  rw [Encoding.decodeLoop64.eq_def, if_neg h]

theorem decodeLoop64_then (e : Encoding) (dstLen f : Nat) (c0 c1 c2 c3 c4 c5 c6 c7 : Nat)
    (r : List Nat) (si : Nat) (out : List Nat)
    (h : 64 ≤ intSize ∧ 8 ≤ (c0 :: c1 :: c2 :: c3 :: c4 :: c5 :: c6 :: c7 :: r).length ∧
      8 ≤ dstLen - out.length) :
    e.decodeLoop64 dstLen (f + 1) (c0 :: c1 :: c2 :: c3 :: c4 :: c5 :: c6 :: c7 :: r) si out =
      match assemble64 (e.dec c0) (e.dec c1) (e.dec c2) (e.dec c3) (e.dec c4) (e.dec c5)
          (e.dec c6) (e.dec c7) with
      | some dn =>
        e.decodeLoop64 dstLen f r (si + 8) (out ++ (BigEndian.PutUint64 dn).take 6)
      | none =>
        if (e.decodeQuantum (c0 :: c1 :: c2 :: c3 :: c4 :: c5 :: c6 :: c7 :: r) si).err ≠ none
        then
          some (out ++ (e.decodeQuantum (c0 :: c1 :: c2 :: c3 :: c4 :: c5 :: c6 :: c7 :: r) si).out,
            (e.decodeQuantum (c0 :: c1 :: c2 :: c3 :: c4 :: c5 :: c6 :: c7 :: r) si).err)
        else e.decodeLoop64 dstLen f
          (e.decodeQuantum (c0 :: c1 :: c2 :: c3 :: c4 :: c5 :: c6 :: c7 :: r) si).rest
          (e.decodeQuantum (c0 :: c1 :: c2 :: c3 :: c4 :: c5 :: c6 :: c7 :: r) si).nsi
          (out ++ (e.decodeQuantum (c0 :: c1 :: c2 :: c3 :: c4 :: c5 :: c6 :: c7 :: r) si).out) := by
  rw [Encoding.decodeLoop64.eq_def, if_pos h]
  rfl

/-- The first loop of `Decode` computes what the third loop alone computes. -/
theorem decodeLoop64_eq (e : Encoding) (he : e = stdPadding ∨ e = noPadding) (dstLen : Nat) :
    ∀ (f : Nat) (rest : List Nat) (si : Nat) (out : List Nat), rest.length ≤ f →
      e.decodeLoop64 dstLen f rest si out = e.decodeTail f rest si out := by
  intro f
  induction f with
  | zero =>
    intro rest si out h
    rw [decodeLoop64_else e dstLen 0 rest si out (by omega)]
    exact decodeLoop32_eq e he dstLen 0 rest si out h
  | succ f ih =>
    intro rest si out h
    by_cases hc : 64 ≤ intSize ∧ 8 ≤ rest.length ∧ 8 ≤ dstLen - out.length
    · match rest, h, hc with
      | c0 :: c1 :: c2 :: c3 :: c4 :: c5 :: c6 :: c7 :: r, h, hc =>
        have hpos : 0 < (c0 :: c1 :: c2 :: c3 :: c4 :: c5 :: c6 :: c7 :: r).length := by simp
        have hlt := decodeQuantum_rest_lt e _ si hpos
        simp only [List.length_cons] at h hlt
        rw [decodeLoop64_then e dstLen f c0 c1 c2 c3 c4 c5 c6 c7 r si out hc,
          decodeTail_step e f si _ out hpos]
        cases ha : assemble64 (e.dec c0) (e.dec c1) (e.dec c2) (e.dec c3) (e.dec c4)
            (e.dec c5) (e.dec c6) (e.dec c7) with
        | none =>
          dsimp only
          rw [ih _ _ _ (by omega)]
        | some dn =>
          obtain ⟨⟨h0, h1, h2, h3⟩, h4, h5, h6, h7⟩ := assemble64_some_lt _ _ _ _ _ _ _ _ dn
            (dec_digit e he c0) (dec_digit e he c1) (dec_digit e he c2) (dec_digit e he c3)
            (dec_digit e he c4) (dec_digit e he c5) (dec_digit e he c6) (dec_digit e he c7) ha
          dsimp only
          obtain ⟨g, rfl⟩ : ∃ g, f = g + 1 := ⟨f - 1, by omega⟩
          have hpos2 : 0 < (c4 :: c5 :: c6 :: c7 :: r).length := by simp
          rw [assemble64_bytes _ _ _ _ _ _ _ _ dn h0 h1 h2 h3 h4 h5 h6 h7 ha,
            decodeQuantum_valid4 e c0 c1 c2 c3 _ si h0 h1 h2 h3, ih _ _ _ (by omega)]
          simp only [ne_eq, not_true_eq_false, if_false]
          rw [decodeTail_step e g (si + 4) _ _ hpos2,
            decodeQuantum_valid4 e c4 c5 c6 c7 r (si + 4) h4 h5 h6 h7,
            decodeTail_fuel_succ e g r _ _ (by omega)]
          simp
    · rw [decodeLoop64_else e dstLen _ rest si out hc]
      exact decodeLoop32_eq e he dstLen _ rest si out h

/-- Method `DecodeString` of the two encodings is the quantum loop run on the
whole string. -/
theorem DecodeString_eq (e : Encoding) (he : e = stdPadding ∨ e = noPadding) (s : List Nat) :
    e.DecodeString s = e.decodeTail s.length s 0 [] := by
  unfold Encoding.DecodeString Encoding.Decode
  split
  · rename_i h
    have : s = [] := List.eq_nil_of_length_eq_zero h
    subst this
    simp [decodeTail_nil]
  · exact decodeLoop64_eq e he _ _ s 0 [] (le_refl _)

/-- Method `DecodeString` of the two encodings always returns. -/
theorem DecodeString_isSome (e : Encoding) (he : e = stdPadding ∨ e = noPadding)
    (s : List Nat) : (e.DecodeString s).isSome = true := by
  rw [DecodeString_eq e he]
  exact decodeTail_isSome e _ s 0 [] (le_refl _)

/-! ## Decoding what `Encode` wrote -/

/-- The third loop of `Decode` undoes `Encode`. -/
theorem decodeTail_Encode (e : Encoding) (he : e = stdPadding ∨ e = noPadding) :
    ∀ (B : List Nat), IsBytes B → ∀ (fuel si : Nat) (out : List Nat),
      (e.Encode B).length ≤ fuel →
      e.decodeTail fuel (e.Encode B) si out = some (out ++ B, none)
  | [], _, fuel, si, out, _ => by
    simp [Encoding.Encode, decodeTail_nil]
  | [a], hB, fuel, si, out, hf => by
    have ha : a < 256 := hB a (by simp)
    obtain ⟨nsi, hq⟩ := decodeQuantum_Encode_one e he a ha si
    have hpos := Encode_length_pos e a []
    obtain ⟨f, rfl⟩ : ∃ f, fuel = f + 1 := ⟨fuel - 1, by omega⟩
    rw [decodeTail_step e f si _ out hpos, hq]
    simp [decodeTail_nil]
  | [a, b], hB, fuel, si, out, hf => by
    have ha : a < 256 := hB a (by simp)
    have hb : b < 256 := hB b (by simp)
    obtain ⟨nsi, hq⟩ := decodeQuantum_Encode_two e he a b ha hb si
    have hpos := Encode_length_pos e a [b]
    obtain ⟨f, rfl⟩ : ∃ f, fuel = f + 1 := ⟨fuel - 1, by omega⟩
    rw [decodeTail_step e f si _ out hpos, hq]
    simp [decodeTail_nil]
  | a :: b :: c :: rest, hB, fuel, si, out, hf => by
    have ha : a < 256 := hB a (by simp)
    have hb : b < 256 := hB b (by simp)
    have hc : c < 256 := hB c (by simp)
    have hrest : IsBytes rest := fun x hx => hB x (by simp [hx])
    have hq := decodeQuantum_Encode_cons3 e he a b c rest ha hb hc si
    have hlen := Encode_length_cons3 e a b c rest
    have hpos := Encode_length_pos e a (b :: c :: rest)
    obtain ⟨f, rfl⟩ : ∃ f, fuel = f + 1 := ⟨fuel - 1, by omega⟩
    rw [decodeTail_step e f si _ out hpos, hq]
    have ih := decodeTail_Encode e he rest hrest f (si + 4) (out ++ [a, b, c]) (by omega)
    simpa using ih

/-- Encoding then decoding, for both encodings. -/
theorem DecodeString_EncodeToString (e : Encoding) (he : e = stdPadding ∨ e = noPadding)
    (B : List Nat) (hB : IsBytes B) :
    e.DecodeString (e.EncodeToString B) = some (B, none) := by
  unfold Encoding.EncodeToString
  rw [DecodeString_eq e he]
  simpa using decodeTail_Encode e he B hB _ 0 [] (le_refl _)

/-! ## Order of byte strings and of their encodings -/

theorem strLess_cons (a b : Nat) (as bs : List Nat) :
    strLess (a :: as) (b :: bs) = (decide (a < b) || (a == b && strLess as bs)) := rfl

theorem strLess_nil_cons (b : Nat) (bs : List Nat) : strLess [] (b :: bs) = true := rfl

theorem strLess_nil_right (as : List Nat) : strLess as [] = false := by
  cases as <;> rfl

theorem digits_less : ∀ (A B : List Nat), IsBytes A → IsBytes B →
    strLess (digits A) (digits B) = strLess A B
  | [], [], _, _ => rfl
  | [], [b], _, _ => rfl
  | [], [b, b1], _, _ => rfl
  | [], b :: b1 :: b2 :: B, _, _ => rfl
  | [a], [], _, _ => rfl
  | [a, a1], [], _, _ => rfl
  | a :: a1 :: a2 :: A, [], _, _ => rfl
  | [a], [b], hA, hB => by
    have ha := hA a (by simp)
    have hb := hB b (by simp)
    simp only [digits, strLess_cons, strLess_nil_right, strLess_nil_cons, Bool.and_false,
      Bool.or_false, Bool.and_true, Bool.or_true]
    rw [Bool.eq_iff_iff]
    simp only [Bool.or_eq_true, Bool.and_eq_true, decide_eq_true_eq, beq_iff_eq]
    omega
  | [a], [b, b1], hA, hB => by
    have ha := hA a (by simp)
    have hb := hB b (by simp)
    have hb1 := hB b1 (by simp)
    simp only [digits, strLess_cons, strLess_nil_right, strLess_nil_cons, Bool.and_false,
      Bool.or_false, Bool.and_true, Bool.or_true]
    rw [Bool.eq_iff_iff]
    simp only [Bool.or_eq_true, Bool.and_eq_true, decide_eq_true_eq, beq_iff_eq]
    omega
  | [a], b :: b1 :: b2 :: B, hA, hB => by
    have ha := hA a (by simp)
    have hb := hB b (by simp)
    have hb1 := hB b1 (by simp)
    have hb2 := hB b2 (by simp)
    simp only [digits, strLess_cons, strLess_nil_right, strLess_nil_cons, Bool.and_false,
      Bool.or_false, Bool.and_true, Bool.or_true]
    rw [Bool.eq_iff_iff]
    simp only [Bool.or_eq_true, Bool.and_eq_true, decide_eq_true_eq, beq_iff_eq]
    omega
  | [a, a1], [b], hA, hB => by
    have ha := hA a (by simp)
    have ha1 := hA a1 (by simp)
    have hb := hB b (by simp)
    simp only [digits, strLess_cons, strLess_nil_right, strLess_nil_cons, Bool.and_false,
      Bool.or_false, Bool.and_true, Bool.or_true]
    rw [Bool.eq_iff_iff]
    simp only [Bool.or_eq_true, Bool.and_eq_true, decide_eq_true_eq, beq_iff_eq]
    omega
  | [a, a1], [b, b1], hA, hB => by
    have ha := hA a (by simp)
    have ha1 := hA a1 (by simp)
    have hb := hB b (by simp)
    have hb1 := hB b1 (by simp)
    simp only [digits, strLess_cons, strLess_nil_right, strLess_nil_cons, Bool.and_false,
      Bool.or_false, Bool.and_true, Bool.or_true]
    rw [Bool.eq_iff_iff]
    simp only [Bool.or_eq_true, Bool.and_eq_true, decide_eq_true_eq, beq_iff_eq]
    omega
  | [a, a1], b :: b1 :: b2 :: B, hA, hB => by
    have ha := hA a (by simp)
    have ha1 := hA a1 (by simp)
    have hb := hB b (by simp)
    have hb1 := hB b1 (by simp)
    have hb2 := hB b2 (by simp)
    simp only [digits, strLess_cons, strLess_nil_right, strLess_nil_cons, Bool.and_false,
      Bool.or_false, Bool.and_true, Bool.or_true]
    rw [Bool.eq_iff_iff]
    simp only [Bool.or_eq_true, Bool.and_eq_true, decide_eq_true_eq, beq_iff_eq]
    omega
  | a :: a1 :: a2 :: A, [b], hA, hB => by
    have ha := hA a (by simp)
    have ha1 := hA a1 (by simp)
    have ha2 := hA a2 (by simp)
    have hb := hB b (by simp)
    simp only [digits, strLess_cons, strLess_nil_right, strLess_nil_cons, Bool.and_false,
      Bool.or_false, Bool.and_true, Bool.or_true]
    rw [Bool.eq_iff_iff]
    simp only [Bool.or_eq_true, Bool.and_eq_true, decide_eq_true_eq, beq_iff_eq]
    omega
  | a :: a1 :: a2 :: A, [b, b1], hA, hB => by
    have ha := hA a (by simp)
    have ha1 := hA a1 (by simp)
    have ha2 := hA a2 (by simp)
    have hb := hB b (by simp)
    have hb1 := hB b1 (by simp)
    simp only [digits, strLess_cons, strLess_nil_right, strLess_nil_cons, Bool.and_false,
      Bool.or_false, Bool.and_true, Bool.or_true]
    rw [Bool.eq_iff_iff]
    simp only [Bool.or_eq_true, Bool.and_eq_true, decide_eq_true_eq, beq_iff_eq]
    omega
  | a :: a1 :: a2 :: A, b :: b1 :: b2 :: B, hA, hB => by
    have ha := hA a (by simp)
    have ha1 := hA a1 (by simp)
    have ha2 := hA a2 (by simp)
    have hb := hB b (by simp)
    have hb1 := hB b1 (by simp)
    have hb2 := hB b2 (by simp)
    have ih := digits_less A B (fun x hx => hA x (by simp [hx]))
      (fun x hx => hB x (by simp [hx]))
    simp only [digits, strLess_cons, ih]
    cases strLess A B <;>
    · rw [Bool.eq_iff_iff]
      simp only [Bool.or_eq_true, Bool.and_eq_true, decide_eq_true_eq, beq_iff_eq,
        Bool.and_false, Bool.or_false, Bool.and_true, Bool.or_true, Bool.false_eq_true,
        and_false, or_false, and_true, or_true]
      omega


theorem differ_cons (a b : Nat) (as bs : List Nat) :
    differ (a :: as) (b :: bs) = ((a != b) || differ as bs) := rfl

theorem differ_nil_right (as : List Nat) : differ as [] = false := by
  cases as <;> rfl

theorem differ_nil_left (bs : List Nat) : differ [] bs = false := rfl

/-- Sequences that differ at a common position have digits that differ at a
common position. -/
theorem digits_differ : ∀ (A B : List Nat), IsBytes A → IsBytes B →
    differ A B = true → differ (digits A) (digits B) = true
  | [], _, _, _ => by simp [differ_nil_left]
  | [a], [], _, _ => by simp [differ_nil_right]
  | [a, a1], [], _, _ => by simp [differ_nil_right]
  | a :: a1 :: a2 :: A, [], _, _ => by simp [differ_nil_right]
  | [a], [b], hA, hB => by
    have ha := hA a (by simp)
    have hb := hB b (by simp)
    simp only [digits, differ_cons, differ_nil_right, differ_nil_left, Bool.or_false,
      Bool.or_eq_true, bne_iff_ne, ne_eq, Bool.false_eq_true, or_false]
    omega
  | [a], [b, b1], hA, hB => by
    have ha := hA a (by simp)
    have hb := hB b (by simp)
    have hb1 := hB b1 (by simp)
    simp only [digits, differ_cons, differ_nil_right, differ_nil_left, Bool.or_false,
      Bool.or_eq_true, bne_iff_ne, ne_eq, Bool.false_eq_true, or_false]
    omega
  | [a], b :: b1 :: b2 :: B, hA, hB => by
    have ha := hA a (by simp)
    have hb := hB b (by simp)
    have hb1 := hB b1 (by simp)
    have hb2 := hB b2 (by simp)
    simp only [digits, differ_cons, differ_nil_right, differ_nil_left, Bool.or_false,
      Bool.or_eq_true, bne_iff_ne, ne_eq, Bool.false_eq_true, or_false]
    omega
  | [a, a1], [b], hA, hB => by
    have ha := hA a (by simp)
    have ha1 := hA a1 (by simp)
    have hb := hB b (by simp)
    simp only [digits, differ_cons, differ_nil_right, differ_nil_left, Bool.or_false,
      Bool.or_eq_true, bne_iff_ne, ne_eq, Bool.false_eq_true, or_false]
    omega
  | [a, a1], [b, b1], hA, hB => by
    have ha := hA a (by simp)
    have ha1 := hA a1 (by simp)
    have hb := hB b (by simp)
    have hb1 := hB b1 (by simp)
    simp only [digits, differ_cons, differ_nil_right, differ_nil_left, Bool.or_false,
      Bool.or_eq_true, bne_iff_ne, ne_eq, Bool.false_eq_true, or_false]
    omega
  | [a, a1], b :: b1 :: b2 :: B, hA, hB => by
    have ha := hA a (by simp)
    have ha1 := hA a1 (by simp)
    have hb := hB b (by simp)
    have hb1 := hB b1 (by simp)
    have hb2 := hB b2 (by simp)
    simp only [digits, differ_cons, differ_nil_right, differ_nil_left, Bool.or_false,
      Bool.or_eq_true, bne_iff_ne, ne_eq, Bool.false_eq_true, or_false]
    omega
  | a :: a1 :: a2 :: A, [b], hA, hB => by
    have ha := hA a (by simp)
    have ha1 := hA a1 (by simp)
    have ha2 := hA a2 (by simp)
    have hb := hB b (by simp)
    simp only [digits, differ_cons, differ_nil_right, differ_nil_left, Bool.or_false,
      Bool.or_eq_true, bne_iff_ne, ne_eq, Bool.false_eq_true, or_false]
    omega
  | a :: a1 :: a2 :: A, [b, b1], hA, hB => by
    have ha := hA a (by simp)
    have ha1 := hA a1 (by simp)
    have ha2 := hA a2 (by simp)
    have hb := hB b (by simp)
    have hb1 := hB b1 (by simp)
    simp only [digits, differ_cons, differ_nil_right, differ_nil_left, Bool.or_false,
      Bool.or_eq_true, bne_iff_ne, ne_eq, Bool.false_eq_true, or_false]
    omega
  | a :: a1 :: a2 :: A, b :: b1 :: b2 :: B, hA, hB => by
    have ha := hA a (by simp)
    have ha1 := hA a1 (by simp)
    have ha2 := hA a2 (by simp)
    have hb := hB b (by simp)
    have hb1 := hB b1 (by simp)
    have hb2 := hB b2 (by simp)
    have ih := digits_differ A B (fun x hx => hA x (by simp [hx]))
      (fun x hx => hB x (by simp [hx]))
    simp only [digits, differ_cons]
    cases hd : differ A B
    · simp only [Bool.or_eq_true, bne_iff_ne, ne_eq, Bool.or_false, Bool.false_eq_true,
        or_false]
      omega
    · simp [ih hd]

theorem digits_lt : ∀ (B : List Nat), IsBytes B → ∀ d ∈ digits B, d < 64
  | [], _, d, hd => by simp [digits] at hd
  | [a], hB, d, hd => by
    have ha := hB a (by simp)
    simp only [digits, List.mem_cons, List.mem_singleton, List.not_mem_nil, or_false] at hd
    omega
  | [a, b], hB, d, hd => by
    have ha := hB a (by simp)
    have hb := hB b (by simp)
    simp only [digits, List.mem_cons, List.mem_singleton, List.not_mem_nil, or_false] at hd
    omega
  | a :: b :: c :: rest, hB, d, hd => by
    have ha := hB a (by simp)
    have hb := hB b (by simp)
    have hc := hB c (by simp)
    have ih := digits_lt rest (fun x hx => hB x (by simp [hx])) d
    simp only [digits, List.mem_cons] at hd
    rcases hd with h | h | h | h | h
    · omega
    · omega
    · omega
    · omega
    · exact ih h

/-- The alphabet lookup is strictly increasing, so it preserves the order of
digit strings. -/
theorem strLess_map_enc : ∀ (X Y : List Nat), (∀ d ∈ X, d < 64) → (∀ d ∈ Y, d < 64) →
    strLess (X.map stdPadding.enc) (Y.map stdPadding.enc) = strLess X Y
  | [], [], _, _ => rfl
  | [], _ :: _, _, _ => rfl
  | _ :: _, [], _, _ => rfl
  | x :: X, y :: Y, hX, hY => by
    have hx := hX x (by simp)
    have hy := hY y (by simp)
    have ih := strLess_map_enc X Y (fun d hd => hX d (by simp [hd]))
      (fun d hd => hY d (by simp [hd]))
    simp only [List.map_cons, strLess_cons, ih]
    have h1 := enc_lt_iff x y hx hy
    have h2 := enc_eq_iff x y hx hy
    rw [show decide (stdPadding.enc x < stdPadding.enc y) = decide (x < y) from
      decide_eq_decide.mpr h1]
    rw [show (stdPadding.enc x == stdPadding.enc y) = (x == y) from by
      rw [Bool.eq_iff_iff]; simpa using h2]

theorem differ_map_enc : ∀ (X Y : List Nat), (∀ d ∈ X, d < 64) → (∀ d ∈ Y, d < 64) →
    differ (X.map stdPadding.enc) (Y.map stdPadding.enc) = differ X Y
  | [], _, _, _ => rfl
  | _ :: _, [], _, _ => rfl
  | x :: X, y :: Y, hX, hY => by
    have hx := hX x (by simp)
    have hy := hY y (by simp)
    have ih := differ_map_enc X Y (fun d hd => hX d (by simp [hd]))
      (fun d hd => hY d (by simp [hd]))
    simp only [List.map_cons, differ_cons, ih]
    have h2 := enc_eq_iff x y hx hy
    rw [show (stdPadding.enc x != stdPadding.enc y) = (x != y) from by
      rw [Bool.eq_iff_iff]; simpa using not_congr h2]

/-- Once two strings differ at a common position, what follows them does not
matter to their order. -/
theorem strLess_append_of_differ : ∀ (X Y P Q : List Nat), differ X Y = true →
    strLess (X ++ P) (Y ++ Q) = strLess X Y
  | [], _, _, _, h => by simp [differ_nil_left] at h
  | _ :: _, [], _, _, h => by simp [differ_nil_right] at h
  | x :: X, y :: Y, P, Q, h => by
    simp only [List.cons_append, strLess_cons]
    by_cases hxy : x = y
    · subst hxy
      have hd : differ X Y = true := by simpa [differ_cons] using h
      rw [strLess_append_of_differ X Y P Q hd]
    · have : (x == y) = false := by simpa using hxy
      simp [this]

theorem differ_iff (A B : List Nat) :
    differ A B = true ↔ ¬ A <+: B ∧ ¬ B <+: A := by
  induction A generalizing B with
  | nil => simp [differ_nil_left]
  | cons a A ih =>
    cases B with
    | nil => simp [differ_nil_right]
    | cons b B =>
      rw [differ_cons, Bool.or_eq_true, ih B, List.cons_prefix_cons, List.cons_prefix_cons]
      simp only [bne_iff_ne, ne_eq]
      constructor
      · rintro (h | ⟨h1, h2⟩)
        · exact ⟨fun h' => h h'.1, fun h' => h h'.1.symm⟩
        · exact ⟨fun h' => h1 h'.2, fun h' => h2 h'.2⟩
      · rintro ⟨h1, h2⟩
        by_cases hab : a = b
        · right
          exact ⟨fun h' => h1 ⟨hab, h'⟩, fun h' => h2 ⟨hab.symm, h'⟩⟩
        · exact Or.inl hab

/-- The unpadded encoding spells the digits in the alphabet. -/
theorem Encode_no_eq_digits : ∀ (B : List Nat), IsBytes B →
    noPadding.Encode B = (digits B).map stdPadding.enc
  | [], _ => rfl
  | [a], hB => by
    rw [Encode_one _ a (hB a (by simp))]; rfl
  | [a, b], hB => by
    rw [Encode_two _ a b (hB a (by simp)) (hB b (by simp))]; rfl
  | a :: b :: c :: rest, hB => by
    rw [Encode_cons3 _ a b c rest (hB a (by simp)) (hB b (by simp)) (hB c (by simp)),
      Encode_no_eq_digits rest (fun x hx => hB x (by simp [hx]))]
    rfl

/-- The padded encoding spells the digits in the alphabet and pads with `'='`. -/
theorem Encode_std_eq_digits : ∀ (B : List Nat), IsBytes B →
    stdPadding.Encode B =
      (digits B).map stdPadding.enc ++ List.replicate (padLen B.length) 61
  | [], _ => rfl
  | [a], hB => by
    rw [Encode_one _ a (hB a (by simp))]; rfl
  | [a, b], hB => by
    rw [Encode_two _ a b (hB a (by simp)) (hB b (by simp))]; rfl
  | a :: b :: c :: rest, hB => by
    rw [Encode_cons3 _ a b c rest (hB a (by simp)) (hB b (by simp)) (hB c (by simp)),
      Encode_std_eq_digits rest (fun x hx => hB x (by simp [hx]))]
    have : padLen (a :: b :: c :: rest).length = padLen rest.length := by
      simp only [padLen, List.length_cons]; omega
    rw [this]
    rfl

/-- The unpadded encoder preserves the byte-wise order of all inputs. -/
theorem Encode_no_less (A B : List Nat) (hA : IsBytes A) (hB : IsBytes B) :
    strLess (noPadding.Encode A) (noPadding.Encode B) = strLess A B := by
  rw [Encode_no_eq_digits A hA, Encode_no_eq_digits B hB,
    strLess_map_enc _ _ (digits_lt A hA) (digits_lt B hB), digits_less A B hA hB]

/-- The padded encoder preserves the byte-wise order of inputs that differ at
a common position. -/
theorem Encode_std_less (A B : List Nat) (hA : IsBytes A) (hB : IsBytes B)
    (h : differ A B = true) :
    strLess (stdPadding.Encode A) (stdPadding.Encode B) = strLess A B := by
  have hd : differ ((digits A).map stdPadding.enc) ((digits B).map stdPadding.enc) = true := by
    rw [differ_map_enc _ _ (digits_lt A hA) (digits_lt B hB)]
    exact digits_differ A B hA hB h
  rw [Encode_std_eq_digits A hA, Encode_std_eq_digits B hB,
    strLess_append_of_differ _ _ _ _ hd,
    strLess_map_enc _ _ (digits_lt A hA) (digits_lt B hB), digits_less A B hA hB]

theorem strLess_irrefl : ∀ (A : List Nat), strLess A A = false
  | [] => rfl
  | a :: A => by simp [strLess_cons, strLess_irrefl A]

theorem strLess_asymm : ∀ (A B : List Nat), strLess A B = true → strLess B A = false
  | [], [], h => by simp [strLess] at h
  | [], _ :: _, _ => rfl
  | _ :: _, [], h => by simp [strLess] at h
  | a :: A, b :: B, h => by
    have ih := strLess_asymm A B
    simp only [strLess_cons, Bool.or_eq_true, Bool.and_eq_true, decide_eq_true_eq,
      beq_iff_eq] at h
    rw [strLess_cons, Bool.eq_false_iff]
    simp only [ne_eq, Bool.or_eq_true, Bool.and_eq_true, decide_eq_true_eq, beq_iff_eq,
      not_or, not_and, not_lt]
    rcases h with h | ⟨h1, h2⟩
    · exact ⟨by omega, fun h' => by omega⟩
    · exact ⟨by omega, fun _ => by simp [ih h2]⟩

theorem strLess_total : ∀ (A B : List Nat),
    strLess A B = false → strLess B A = false → A = B
  | [], [], _, _ => rfl
  | [], _ :: _, h, _ => by simp [strLess] at h
  | _ :: _, [], _, h => by simp [strLess] at h
  | a :: A, b :: B, h1, h2 => by
    have ih := strLess_total A B
    rw [strLess_cons, Bool.eq_false_iff] at h1 h2
    simp only [ne_eq, Bool.or_eq_true, Bool.and_eq_true, decide_eq_true_eq, beq_iff_eq,
      not_or, not_and, not_lt, Bool.not_eq_true] at h1 h2
    have hab : a = b := by omega
    subst hab
    rw [ih (h1.2 rfl) (h2.2 rfl)]

/-- Sorting the encodings and decoding them gives the sorted originals, for
an encoder that preserves the order on `L` and a decoder that inverts it. -/
theorem sorted_decode (enc : List Nat → List Nat) (dec : List Nat → Option Decoded)
    (L S T : List (List Nat))
    (hmono : ∀ x ∈ L, ∀ y ∈ L, strLess y x = false → strLess (enc y) (enc x) = false)
    (hrt : ∀ x ∈ L, dec (enc x) = some (x, none))
    (hS : S.Perm (L.map enc)) (hSs : S.Pairwise (fun x y => strLess y x = false))
    (hT : T.Perm L) (hTs : T.Pairwise (fun x y => strLess y x = false)) :
    S.map dec = T.map (fun b => some (b, none)) := by
  haveI : IsAntisymm (List Nat) (fun x y => strLess y x = false) :=
    ⟨fun a b h1 h2 => strLess_total a b h2 h1⟩
  have hTE : (T.map enc).Pairwise (fun x y => strLess y x = false) := by
    rw [List.pairwise_map]
    exact hTs.imp_of_mem (fun {x y} hx hy h => hmono x (hT.subset hx) y (hT.subset hy) h)
  have hperm : S.Perm (T.map enc) := hS.trans (hT.map enc).symm
  have hST : S = T.map enc := List.eq_of_perm_of_sorted hperm hSs hTE
  rw [hST, List.map_map]
  exact List.map_congr_left (fun x hx => hrt x (hT.subset hx))

/-! ## Facts about the integer adapter -/

theorem uintToBytes_isBytes (n : Nat) (le : Bool) : IsBytes (uintToBytes n le) := by
  intro x hx
  cases le <;>
    simp only [uintToBytes, BigEndian.PutUint64, LittleEndian.PutUint64, if_true,
      Bool.false_eq_true, if_false, List.mem_cons, List.mem_singleton, List.not_mem_nil,
      or_false] at hx <;>
    omega

theorem bytesToUint_uintToBytes (n : Nat) (hn : n < 2 ^ 64) (le : Bool) :
    bytesToUint (uintToBytes n le) le = Run.returns n := by
  cases le
  · simp only [bytesToUint, uintToBytes, BigEndian.PutUint64, BigEndian.Uint64,
      Bool.false_eq_true, if_false, Nat.shiftLeft_eq, Nat.shiftRight_eq_div_pow]
    rw [or_eq_add_right 8 (n % 256) _ (by omega) (by omega),
      or_eq_add_right 16 _ (n / 2 ^ 16 % 256 * 2 ^ 16) (by omega) (by omega),
      or_eq_add_right 24 _ (n / 2 ^ 24 % 256 * 2 ^ 24) (by omega) (by omega),
      or_eq_add_right 32 _ (n / 2 ^ 32 % 256 * 2 ^ 32) (by omega) (by omega),
      or_eq_add_right 40 _ (n / 2 ^ 40 % 256 * 2 ^ 40) (by omega) (by omega),
      or_eq_add_right 48 _ (n / 2 ^ 48 % 256 * 2 ^ 48) (by omega) (by omega),
      or_eq_add_right 56 _ (n / 2 ^ 56 % 256 * 2 ^ 56) (by omega) (by omega)]
    congr 1
    omega
  · simp only [bytesToUint, uintToBytes, LittleEndian.PutUint64, LittleEndian.Uint64,
      if_true, Nat.shiftLeft_eq, Nat.shiftRight_eq_div_pow]
    rw [or_eq_add_right 8 (n % 256) _ (by omega) (by omega),
      or_eq_add_right 16 _ (n / 2 ^ 16 % 256 * 2 ^ 16) (by omega) (by omega),
      or_eq_add_right 24 _ (n / 2 ^ 24 % 256 * 2 ^ 24) (by omega) (by omega),
      or_eq_add_right 32 _ (n / 2 ^ 32 % 256 * 2 ^ 32) (by omega) (by omega),
      or_eq_add_right 40 _ (n / 2 ^ 40 % 256 * 2 ^ 40) (by omega) (by omega),
      or_eq_add_right 48 _ (n / 2 ^ 48 % 256 * 2 ^ 48) (by omega) (by omega),
      or_eq_add_right 56 _ (n / 2 ^ 56 % 256 * 2 ^ 56) (by omega) (by omega)]
    congr 1
    omega

/-- The statement `return bytesToUint(buf, littleEndian), err` on the bytes
of a `uint64`. -/
theorem returnUint_uintToBytes (n : Nat) (hn : n < 2 ^ 64) (le : Bool) :
    returnUint (some (uintToBytes n le, none)) le = some (Run.returns (n, none)) := by
  simp only [returnUint, bytesToUint_uintToBytes n hn le]

theorem lex_step (K a b x y : Nat) (hx : x < K) (hy : y < K) :
    a * K + x < b * K + y ↔ a < b ∨ (a = b ∧ x < y) := by
  constructor
  · intro h
    rcases Nat.lt_trichotomy a b with h1 | h1 | h1
    · exact Or.inl h1
    · subst h1; exact Or.inr ⟨rfl, by omega⟩
    · exfalso
      have h2 : (b + 1) * K ≤ a * K := Nat.mul_le_mul_right K h1
      rw [Nat.add_mul] at h2
      omega
  · rintro (h | ⟨rfl, h⟩)
    · have h2 : (a + 1) * K ≤ b * K := Nat.mul_le_mul_right K h
      rw [Nat.add_mul] at h2
      omega
    · omega

theorem beVal_lt : ∀ (X : List Nat), IsBytes X → beVal X < 256 ^ X.length
  | [], _ => by simp [beVal]
  | x :: X, hX => by
    have hx := hX x (by simp)
    have ih := beVal_lt X (fun d hd => hX d (by simp [hd]))
    have h2 : (x + 1) * 256 ^ X.length ≤ 256 * 256 ^ X.length :=
      Nat.mul_le_mul_right _ (by omega)
    rw [Nat.add_mul] at h2
    simp only [beVal, List.length_cons, Nat.pow_succ]
    omega

/-- Sequences of one length compare byte-wise like the numbers they spell. -/
theorem strLess_beVal : ∀ (X Y : List Nat), IsBytes X → IsBytes Y → X.length = Y.length →
    strLess X Y = decide (beVal X < beVal Y)
  | [], [], _, _, _ => by simp [strLess, beVal]
  | [], _ :: _, _, _, h => by simp at h
  | _ :: _, [], _, _, h => by simp at h
  | x :: X, y :: Y, hX, hY, h => by
    have hlen : X.length = Y.length := by simpa using h
    have hX1 : IsBytes X := fun d hd => hX d (by simp [hd])
    have hY1 : IsBytes Y := fun d hd => hY d (by simp [hd])
    have ih := strLess_beVal X Y hX1 hY1 hlen
    have bx := beVal_lt X hX1
    have by1 := beVal_lt Y hY1
    rw [hlen] at bx
    have key := lex_step (256 ^ Y.length) x y (beVal X) (beVal Y) bx by1
    rw [strLess_cons, ih, Bool.eq_iff_iff]
    simp only [Bool.or_eq_true, Bool.and_eq_true, decide_eq_true_eq, beq_iff_eq, beVal, hlen]
    exact key.symm

theorem differ_of_ne : ∀ (X Y : List Nat), X.length = Y.length → X ≠ Y → differ X Y = true
  | [], [], _, h => absurd rfl h
  | [], _ :: _, h, _ => by simp at h
  | _ :: _, [], h, _ => by simp at h
  | x :: X, y :: Y, h, hne => by
    rw [differ_cons, Bool.or_eq_true]
    by_cases hxy : x = y
    · subst hxy
      right
      exact differ_of_ne X Y (by simpa using h) (fun h' => hne (by rw [h']))
    · left; simpa using hxy

theorem beVal_uintToBytes (n : Nat) (hn : n < 2 ^ 64) : beVal (uintToBytes n false) = n := by
  simp only [uintToBytes, Bool.false_eq_true, if_false, BigEndian.PutUint64, beVal,
    List.length_cons, List.length_nil, Nat.shiftRight_eq_div_pow]
  omega

theorem uintToBytes_length (n : Nat) (le : Bool) : (uintToBytes n le).length = 8 := by
  cases le <;> rfl

/-- Big-endian bytes compare like the numbers they spell. -/
theorem strLess_uintToBytes (n m : Nat) (hn : n < 2 ^ 64) (hm : m < 2 ^ 64) :
    strLess (uintToBytes n false) (uintToBytes m false) = decide (n < m) := by
  rw [strLess_beVal _ _ (uintToBytes_isBytes n false) (uintToBytes_isBytes m false)
    (by rw [uintToBytes_length, uintToBytes_length]), beVal_uintToBytes n hn,
    beVal_uintToBytes m hm]

theorem uintToBytes_ne (n m : Nat) (hn : n < 2 ^ 64) (hm : m < 2 ^ 64) (h : n ≠ m) :
    uintToBytes n false ≠ uintToBytes m false := by
  intro h'
  have := congrArg beVal h'
  rw [beVal_uintToBytes n hn, beVal_uintToBytes m hm] at this
  exact h this

/-- The Go function `NewEncoding` accepts `urlSafeAsc`: it has 64 bytes and
neither `'\n'` nor `'\r'`, so neither of its panics is reached. -/
theorem urlSafeAsc_accepted : urlSafeAsc.length = 64 ∧ 10 ∉ urlSafeAsc ∧ 13 ∉ urlSafeAsc := by
  decide

/-- Method `Encode` fills the whole buffer that `EncodeToString` allocates. -/
theorem EncodeToString_length (e : Encoding) :
    ∀ (B : List Nat), (e.EncodeToString B).length = e.EncodedLen B.length
  | [] => by simp [Encoding.EncodeToString, Encoding.Encode, Encoding.EncodedLen]
  | [a] => by
    by_cases h : e.padChar = NoPadding <;>
      simp [Encoding.EncodeToString, Encoding.Encode, Encoding.EncodedLen, h]
  | [a, b] => by
    by_cases h : e.padChar = NoPadding <;>
      simp [Encoding.EncodeToString, Encoding.Encode, Encoding.EncodedLen, h]
  | a :: b :: c :: rest => by
    have ih := EncodeToString_length e rest
    simp only [Encoding.EncodeToString, Encoding.EncodedLen] at ih
    simp only [Encoding.EncodeToString, Encoding.Encode, Encoding.EncodedLen,
      List.length_cons, ih]
    split <;> omega

/-! ## The character loop of `decodeQuantum` on arbitrary input -/

theorem significant_nil : significant [] = 0 := rfl

theorem significant_cons_newline (c : Nat) (r : List Nat) (h : c = 10 ∨ c = 13) :
    significant (c :: r) = significant r := by
  unfold significant
  rw [List.countP_cons_of_neg]
  rcases h with h | h <;> simp [h]

theorem significant_cons (c : Nat) (r : List Nat) (h : ¬ (c = 10 ∨ c = 13)) :
    significant (c :: r) = significant r + 1 := by
  unfold significant
  rw [List.countP_cons_of_pos]
  simp only [not_or] at h
  simp [h.1, h.2]

theorem significant_append (p l : List Nat) :
    significant (p ++ l) = significant p + significant l := by
  unfold significant; exact List.countP_append _ _ _

theorem significant_newlines (p : List Nat) (h : ∀ c ∈ p, c = 10 ∨ c = 13) :
    significant p = 0 := by
  induction p with
  | nil => rfl
  | cons c p ih =>
    rw [significant_cons_newline c p (h c (by simp)), ih (fun d hd => h d (by simp [hd]))]

/-- The newline-skipping loop stops at the end of the input or at the first
character that is no newline. -/
theorem skipNewlines_cases (r : List Nat) (si : Nat) :
    (skipNewlines r si = ([], si + r.length) ∧ ∀ c ∈ r, c = 10 ∨ c = 13) ∨
    (∃ p d l, r = p ++ d :: l ∧ (∀ c ∈ p, c = 10 ∨ c = 13) ∧ ¬ (d = 10 ∨ d = 13) ∧
      skipNewlines r si = (d :: l, si + p.length)) := by
  induction r generalizing si with
  | nil => left; simp [skipNewlines]
  | cons c r ih =>
    by_cases hc : c = 10 ∨ c = 13
    · rcases ih (si + 1) with ⟨h1, h2⟩ | ⟨p, d, l, h1, h2, h3, h4⟩
      · left
        refine ⟨?_, ?_⟩
        · simp only [skipNewlines, hc, if_true, h1, List.length_cons]
          congr 1; omega
        · intro x hx
          rcases List.mem_cons.mp hx with h | h
          · rw [h]; exact hc
          · exact h2 x h
      · right
        refine ⟨c :: p, d, l, by rw [h1]; rfl, ?_, h3, ?_⟩
        · intro x hx
          rcases List.mem_cons.mp hx with h | h
          · rw [h]; exact hc
          · exact h2 x h
        · simp only [skipNewlines, hc, if_true, h4, List.length_cons]
          congr 1; omega
    · right
      refine ⟨[], c, r, rfl, by simp, hc, ?_⟩
      simp only [skipNewlines, hc, if_false, List.length_nil, Nat.add_zero]

/-! ### The branches of the character loop -/

theorem scan_done (e : Encoding) (rest : List Nat) (j : Nat) (dbuf : List Nat) (si : Nat)
    (hj : 4 ≤ j) : e.scan rest j dbuf si = Scan.brk dbuf 4 rest si none := by
  rw [Encoding.scan.eq_def, if_pos hj]

theorem scan_nil (e : Encoding) (j : Nat) (dbuf : List Nat) (si : Nat) (hj : j < 4) :
    e.scan [] j dbuf si =
      if j = 0 then Scan.ret [] si none
      else if j = 1 ∨ e.padChar ≠ NoPadding then
        Scan.ret [] si (some ⟨(si : Int) - (j : Int)⟩)
      else Scan.brk dbuf j [] si none := by
  rw [Encoding.scan.eq_def, if_neg (by omega)]

theorem scan_digit (e : Encoding) (c : Nat) (r : List Nat) (j : Nat) (dbuf : List Nat)
    (si : Nat) (hj : j < 4) (hc : e.dec c ≠ 255) :
    e.scan (c :: r) j dbuf si = e.scan r (j + 1) (dbuf.set j (e.dec c)) (si + 1) := by
  rw [Encoding.scan.eq_def, if_neg (by omega)]
  simp only []
  rw [if_pos hc]

theorem scan_newline (e : Encoding) (c : Nat) (r : List Nat) (j : Nat) (dbuf : List Nat)
    (si : Nat) (hj : j < 4) (hc : e.dec c = 255) (hn : c = 10 ∨ c = 13) :
    e.scan (c :: r) j dbuf si = e.scan r j dbuf (si + 1) := by
  rw [Encoding.scan.eq_def, if_neg (by omega)]
  simp only []
  rw [if_neg (by simpa using hc), if_pos hn]

theorem scan_illegal (e : Encoding) (c : Nat) (r : List Nat) (j : Nat) (dbuf : List Nat)
    (si : Nat) (hj : j < 4) (hc : e.dec c = 255) (hn : ¬ (c = 10 ∨ c = 13))
    (hp : (c : Int) ≠ e.padChar) :
    e.scan (c :: r) j dbuf si = Scan.ret r (si + 1) (some ⟨((si + 1 : Nat) : Int) - 1⟩) := by
  rw [Encoding.scan.eq_def, if_neg (by omega)]
  simp only []
  rw [if_neg (by simpa using hc), if_neg hn, if_pos hp]

theorem scan_pad_early (e : Encoding) (c : Nat) (r : List Nat) (j : Nat) (dbuf : List Nat)
    (si : Nat) (hj : j = 0 ∨ j = 1) (hc : e.dec c = 255) (hn : ¬ (c = 10 ∨ c = 13))
    (hp : (c : Int) = e.padChar) :
    e.scan (c :: r) j dbuf si = Scan.ret r (si + 1) (some ⟨((si + 1 : Nat) : Int) - 1⟩) := by
  rw [Encoding.scan.eq_def, if_neg (by omega)]
  simp only []
  rw [if_neg (by simpa using hc), if_neg hn, if_neg (by simpa using hp), if_pos hj]

theorem scan_pad_two (e : Encoding) (c : Nat) (r : List Nat) (dbuf : List Nat)
    (si : Nat) (hc : e.dec c = 255) (hn : ¬ (c = 10 ∨ c = 13))
    (hp : (c : Int) = e.padChar) :
    e.scan (c :: r) 2 dbuf si =
      match skipNewlines r (si + 1) with
      | ([], si2) => Scan.ret [] si2 (some ⟨(si2 : Int)⟩)
      | (d :: rest3, si2) =>
        if (d : Int) ≠ e.padChar then
          Scan.ret (d :: rest3) si2 (some ⟨(si2 : Int) - 1⟩)
        else
          match skipNewlines rest3 (si2 + 1) with
          | ([], si4) => Scan.brk dbuf 2 [] si4 none
          | (r4, si4) => Scan.brk dbuf 2 r4 si4 (some ⟨(si4 : Int)⟩) := by
  rw [Encoding.scan.eq_def, if_neg (by omega)]
  simp only []
  rw [if_neg (by simpa using hc), if_neg hn, if_neg (by simpa using hp), if_neg (by omega),
    if_pos trivial]

theorem scan_pad_three (e : Encoding) (c : Nat) (r : List Nat) (dbuf : List Nat)
    (si : Nat) (hc : e.dec c = 255) (hn : ¬ (c = 10 ∨ c = 13))
    (hp : (c : Int) = e.padChar) :
    e.scan (c :: r) 3 dbuf si =
      match skipNewlines r (si + 1) with
      | ([], si4) => Scan.brk dbuf 3 [] si4 none
      | (r4, si4) => Scan.brk dbuf 3 r4 si4 (some ⟨(si4 : Int)⟩) := by
  rw [Encoding.scan.eq_def, if_neg (by omega)]
  simp only []
  rw [if_neg (by simpa using hc), if_neg hn, if_neg (by simpa using hp), if_neg (by omega),
    if_neg (by omega)]


theorem skipNewlines_all (r : List Nat) (si : Nat) (hr : ∀ x ∈ r, x = 10 ∨ x = 13) :
    skipNewlines r si = ([], si + r.length) := by
  rcases skipNewlines_cases r si with ⟨h1, _⟩ | ⟨p, d, l, h1, _, h3, _⟩
  · exact h1
  · exact absurd (hr d (by rw [h1]; simp)) h3

theorem skipNewlines_append (p : List Nat) (d : Nat) (l : List Nat) (si : Nat)
    (hp : ∀ x ∈ p, x = 10 ∨ x = 13) (hd : ¬ (d = 10 ∨ d = 13)) :
    skipNewlines (p ++ d :: l) si = (d :: l, si + p.length) := by
  induction p generalizing si with
  | nil => simp [skipNewlines, hd]
  | cons x p ih =>
    have hx := hp x (by simp)
    have h := ih (si + 1) (fun z hz => hp z (by simp [hz]))
    rw [List.cons_append, skipNewlines, if_pos hx, h, List.length_cons]
    congr 1; omega

/-- A string is all newlines, or has a first character that is no newline. -/
theorem newline_split (r : List Nat) :
    (∀ c ∈ r, c = 10 ∨ c = 13) ∨
    (∃ p d l, r = p ++ d :: l ∧ (∀ c ∈ p, c = 10 ∨ c = 13) ∧ ¬ (d = 10 ∨ d = 13)) := by
  rcases skipNewlines_cases r 0 with ⟨_, h2⟩ | ⟨p, d, l, h1, h2, h3, _⟩
  · exact Or.inl h2
  · exact Or.inr ⟨p, d, l, h1, h2, h3⟩

/-- After three digits and a padding character only newlines may follow. -/
theorem scan_pad_three_end (e : Encoding) (c : Nat) (r : List Nat) (dbuf : List Nat)
    (si : Nat) (hc : e.dec c = 255) (hn : ¬ (c = 10 ∨ c = 13))
    (hp : (c : Int) = e.padChar) (hr : ∀ x ∈ r, x = 10 ∨ x = 13) :
    e.scan (c :: r) 3 dbuf si = Scan.brk dbuf 3 [] (si + 1 + r.length) none := by
  rw [scan_pad_three e c r dbuf si hc hn hp, skipNewlines_all r _ hr]

/-- Anything else after three digits and a padding character is trailing
garbage: the quantum is decoded and the error is returned with it. -/
theorem scan_pad_three_more (e : Encoding) (c : Nat) (p : List Nat) (d : Nat) (l : List Nat)
    (dbuf : List Nat) (si : Nat) (hc : e.dec c = 255) (hn : ¬ (c = 10 ∨ c = 13))
    (hp : (c : Int) = e.padChar) (hpn : ∀ x ∈ p, x = 10 ∨ x = 13) (hd : ¬ (d = 10 ∨ d = 13)) :
    e.scan (c :: (p ++ d :: l)) 3 dbuf si =
      Scan.brk dbuf 3 (d :: l) (si + 1 + p.length)
        (some ⟨((si + 1 + p.length : Nat) : Int)⟩) := by
  rw [scan_pad_three e c _ dbuf si hc hn hp, skipNewlines_append p d l _ hpn hd]

/-- After two digits and a padding character the input may not end. -/
theorem scan_pad_two_end (e : Encoding) (c : Nat) (r : List Nat) (dbuf : List Nat)
    (si : Nat) (hc : e.dec c = 255) (hn : ¬ (c = 10 ∨ c = 13))
    (hp : (c : Int) = e.padChar) (hr : ∀ x ∈ r, x = 10 ∨ x = 13) :
    e.scan (c :: r) 2 dbuf si =
      Scan.ret [] (si + 1 + r.length) (some ⟨((si + 1 + r.length : Nat) : Int)⟩) := by
  rw [scan_pad_two e c r dbuf si hc hn hp, skipNewlines_all r _ hr]

/-- After two digits and a padding character a second one must follow. -/
theorem scan_pad_two_other (e : Encoding) (c : Nat) (p : List Nat) (d : Nat) (l : List Nat)
    (dbuf : List Nat) (si : Nat) (hc : e.dec c = 255) (hn : ¬ (c = 10 ∨ c = 13))
    (hp : (c : Int) = e.padChar) (hpn : ∀ x ∈ p, x = 10 ∨ x = 13) (hd : ¬ (d = 10 ∨ d = 13))
    (hdp : (d : Int) ≠ e.padChar) :
    e.scan (c :: (p ++ d :: l)) 2 dbuf si =
      Scan.ret (d :: l) (si + 1 + p.length)
        (some ⟨((si + 1 + p.length : Nat) : Int) - 1⟩) := by
  rw [scan_pad_two e c _ dbuf si hc hn hp, skipNewlines_append p d l _ hpn hd]
  simp only []
  rw [if_pos hdp]

/-- After two digits and two padding characters only newlines may follow. -/
theorem scan_pad_two_done (e : Encoding) (c : Nat) (p : List Nat) (d : Nat) (l : List Nat)
    (dbuf : List Nat) (si : Nat) (hc : e.dec c = 255) (hn : ¬ (c = 10 ∨ c = 13))
    (hp : (c : Int) = e.padChar) (hpn : ∀ x ∈ p, x = 10 ∨ x = 13) (hd : ¬ (d = 10 ∨ d = 13))
    (hdp : (d : Int) = e.padChar) (hl : ∀ x ∈ l, x = 10 ∨ x = 13) :
    e.scan (c :: (p ++ d :: l)) 2 dbuf si =
      Scan.brk dbuf 2 [] (si + 1 + p.length + 1 + l.length) none := by
  rw [scan_pad_two e c _ dbuf si hc hn hp, skipNewlines_append p d l _ hpn hd]
  simp only []
  rw [if_neg (by simpa using hdp), skipNewlines_all l _ hl]

/-- Anything else after two digits and two padding characters is trailing
garbage: the quantum is decoded and the error is returned with it. -/
theorem scan_pad_two_more (e : Encoding) (c : Nat) (p : List Nat) (d : Nat)
    (p2 : List Nat) (d2 : Nat) (l2 : List Nat)
    (dbuf : List Nat) (si : Nat) (hc : e.dec c = 255) (hn : ¬ (c = 10 ∨ c = 13))
    (hp : (c : Int) = e.padChar) (hpn : ∀ x ∈ p, x = 10 ∨ x = 13) (hd : ¬ (d = 10 ∨ d = 13))
    (hdp : (d : Int) = e.padChar) (hp2 : ∀ x ∈ p2, x = 10 ∨ x = 13)
    (hd2 : ¬ (d2 = 10 ∨ d2 = 13)) :
    e.scan (c :: (p ++ d :: (p2 ++ d2 :: l2))) 2 dbuf si =
      Scan.brk dbuf 2 (d2 :: l2) (si + 1 + p.length + 1 + p2.length)
        (some ⟨((si + 1 + p.length + 1 + p2.length : Nat) : Int)⟩) := by
  rw [scan_pad_two e c _ dbuf si hc hn hp, skipNewlines_append p d _ _ hpn hd]
  simp only []
  rw [if_neg (by simpa using hdp), skipNewlines_append p2 d2 l2 _ hp2 hd2]

/-- What one turn of the character loop of `decodeQuantum` does with the
character `c`, below four collected digits: it takes a digit, skips a
newline, returns an error, or ends the quantum at its padding. -/
theorem scan_cons_cases (e : Encoding) (c : Nat) (r : List Nat) (j : Nat) (dbuf : List Nat)
    (si : Nat) (hj : j < 4) :
    (e.dec c ≠ 255 ∧
      e.scan (c :: r) j dbuf si = e.scan r (j + 1) (dbuf.set j (e.dec c)) (si + 1)) ∨
    (e.dec c = 255 ∧ (c = 10 ∨ c = 13) ∧
      e.scan (c :: r) j dbuf si = e.scan r j dbuf (si + 1)) ∨
    (e.dec c = 255 ∧ ¬ (c = 10 ∨ c = 13) ∧
      ∃ u s err, e.scan (c :: r) j dbuf si = Scan.ret u s (some err) ∧
        (si : Int) ≤ err.offset) ∨
    (e.dec c = 255 ∧ ¬ (c = 10 ∨ c = 13) ∧ (c : Int) = e.padChar ∧ (j = 2 ∨ j = 3) ∧
      significant r + j = 3 ∧ (∀ x ∈ r, (x = 10 ∨ x = 13) ∨ (x : Int) = e.padChar) ∧
      ∃ s, e.scan (c :: r) j dbuf si = Scan.brk dbuf j [] s none) ∨
    (e.dec c = 255 ∧ ¬ (c = 10 ∨ c = 13) ∧ (c : Int) = e.padChar ∧ (j = 2 ∨ j = 3) ∧
      ∃ u s, e.scan (c :: r) j dbuf si = Scan.brk dbuf j u s (some ⟨(s : Int)⟩) ∧
        si + 4 ≤ s + j) := by
  by_cases hc : e.dec c ≠ 255
  · exact Or.inl ⟨hc, scan_digit e c r j dbuf si hj hc⟩
  have hc : e.dec c = 255 := by simpa using hc
  by_cases hn : c = 10 ∨ c = 13
  · exact Or.inr (Or.inl ⟨hc, hn, scan_newline e c r j dbuf si hj hc hn⟩)
  by_cases hp : (c : Int) ≠ e.padChar
  · refine Or.inr (Or.inr (Or.inl ⟨hc, hn, _, _, _, scan_illegal e c r j dbuf si hj hc hn hp, ?_⟩))
    simp
  have hp : (c : Int) = e.padChar := by simpa using hp
  by_cases h01 : j = 0 ∨ j = 1
  · refine Or.inr (Or.inr (Or.inl ⟨hc, hn, _, _, _, scan_pad_early e c r j dbuf si h01 hc hn hp, ?_⟩))
    simp
  by_cases h2 : j = 2
  · subst h2
    rcases newline_split r with hr | ⟨p, d, l, rfl, hpn, hd⟩
    · refine Or.inr (Or.inr (Or.inl ⟨hc, hn, _, _, _, scan_pad_two_end e c r dbuf si hc hn hp hr, ?_⟩))
      simp only [Nat.cast_add, Nat.cast_one]; omega
    · by_cases hdp : (d : Int) ≠ e.padChar
      · refine Or.inr (Or.inr (Or.inl ⟨hc, hn, _, _, _,
          scan_pad_two_other e c p d l dbuf si hc hn hp hpn hd hdp, ?_⟩))
        simp only [Nat.cast_add, Nat.cast_one]; omega
      have hdp : (d : Int) = e.padChar := by simpa using hdp
      rcases newline_split l with hl | ⟨p2, d2, l2, rfl, hp2, hd2⟩
      · refine Or.inr (Or.inr (Or.inr (Or.inl ⟨hc, hn, hp, Or.inl rfl, ?_, ?_, _,
          scan_pad_two_done e c p d l dbuf si hc hn hp hpn hd hdp hl⟩)))
        · rw [significant_append, significant_newlines p hpn, significant_cons d l hd,
            significant_newlines l hl]
        · intro x hx
          rcases List.mem_append.mp hx with h | h
          · exact Or.inl (hpn x h)
          · rcases List.mem_cons.mp h with h | h
            · right; rw [h]; exact hdp
            · exact Or.inl (hl x h)
      · refine Or.inr (Or.inr (Or.inr (Or.inr ⟨hc, hn, hp, Or.inl rfl, _, _,
          scan_pad_two_more e c p d p2 d2 l2 dbuf si hc hn hp hpn hd hdp hp2 hd2, ?_⟩)))
        omega
  · have h3 : j = 3 := by omega
    subst h3
    rcases newline_split r with hr | ⟨p, d, l, rfl, hpn, hd⟩
    · refine Or.inr (Or.inr (Or.inr (Or.inl ⟨hc, hn, hp, Or.inr rfl, ?_, ?_, _,
        scan_pad_three_end e c r dbuf si hc hn hp hr⟩)))
      · rw [significant_newlines r hr]
      · intro x hx; exact Or.inl (hr x hx)
    · refine Or.inr (Or.inr (Or.inr (Or.inr ⟨hc, hn, hp, Or.inr rfl, _, _,
        scan_pad_three_more e c p d l dbuf si hc hn hp hpn hd, ?_⟩)))
      omega

/-- When the character loop ends without error, every character it read was
a digit, a newline or padding, and it read four digits, or nothing but
newlines, or (without padding) the last two or three digits of the input. -/
theorem scan_ok (e : Encoding) (h10 : e.dec 10 = 255) (h13 : e.dec 13 = 255)
    (rest : List Nat) :
    ∀ (j : Nat) (dbuf : List Nat) (si : Nat), j ≤ 4 →
      (e.scan rest j dbuf si).err = none →
      (∀ c ∈ rest, e.dec c = 255 → ¬ (c = 10 ∨ c = 13) → (c : Int) ≠ e.padChar →
        c ∈ (e.scan rest j dbuf si).unread) ∧
      (significant rest + j = 4 + significant (e.scan rest j dbuf si).unread ∨
        ((e.scan rest j dbuf si).unread = [] ∧ j = 0 ∧ significant rest = 0) ∨
        ((e.scan rest j dbuf si).unread = [] ∧ e.padChar = NoPadding ∧
          (significant rest + j = 2 ∨ significant rest + j = 3))) := by
  induction rest with
  | nil =>
    intro j dbuf si hj herr
    refine ⟨fun c hc => absurd hc (List.not_mem_nil c), ?_⟩
    by_cases h4 : j = 4
    · subst h4
      rw [scan_done e [] 4 dbuf si (le_refl _)]
      left; simp [Scan.unread, significant_nil]
    · have hj4 : j < 4 := by omega
      rw [scan_nil e j dbuf si hj4] at herr ⊢
      by_cases h0 : j = 0
      · rw [if_pos h0]
        right; left; exact ⟨rfl, h0, rfl⟩
      · rw [if_neg h0] at herr ⊢
        by_cases h1 : j = 1 ∨ e.padChar ≠ NoPadding
        · rw [if_pos h1] at herr
          simp [Scan.err] at herr
        · rw [if_neg h1]
          simp only [not_or, not_not] at h1
          right; right
          refine ⟨rfl, h1.2, ?_⟩
          rw [significant_nil]; omega
  | cons c r ih =>
    intro j dbuf si hj herr
    by_cases h4 : j = 4
    · subst h4
      rw [scan_done e (c :: r) 4 dbuf si (le_refl _)]
      exact ⟨fun x hx _ _ _ => hx, Or.inl (by simp [Scan.unread]; omega)⟩
    have hj4 : j < 4 := by omega
    rcases scan_cons_cases e c r j dbuf si hj4 with
      ⟨hc, heq⟩ | ⟨hc, hn, heq⟩ | ⟨_, _, u, s, err, heq, _⟩ |
      ⟨hc, hn, hp, hj23, hsig, hall, s, heq⟩ | ⟨_, _, _, _, u, s, heq, _⟩
    · rw [heq] at herr ⊢
      have hcn : ¬ (c = 10 ∨ c = 13) := by
        rintro (h | h)
        · rw [h] at hc; exact hc h10
        · rw [h] at hc; exact hc h13
      obtain ⟨i1, i2⟩ := ih (j + 1) _ (si + 1) (by omega) herr
      refine ⟨?_, ?_⟩
      · intro x hx hx255 hxn hxp
        rcases List.mem_cons.mp hx with h | h
        · rw [h] at hx255; exact absurd hx255 hc
        · exact i1 x h hx255 hxn hxp
      · rw [significant_cons c r hcn]
        rcases i2 with h | ⟨_, h, _⟩ | ⟨h1, h2, h3⟩
        · left; omega
        · omega
        · right; right; exact ⟨h1, h2, by omega⟩
    · rw [heq] at herr ⊢
      obtain ⟨i1, i2⟩ := ih j _ (si + 1) hj herr
      refine ⟨?_, ?_⟩
      · intro x hx hx255 hxn hxp
        rcases List.mem_cons.mp hx with h | h
        · rw [h] at hxn; exact absurd hn hxn
        · exact i1 x h hx255 hxn hxp
      · rw [significant_cons_newline c r hn]
        exact i2
    · rw [heq] at herr; simp [Scan.err] at herr
    · rw [heq]
      refine ⟨?_, ?_⟩
      · intro x hx hx255 hxn hxp
        rcases List.mem_cons.mp hx with h | h
        · rw [h] at hxp; exact absurd hp hxp
        · rcases hall x h with h' | h'
          · exact absurd h' hxn
          · exact absurd h' hxp
      · left
        rw [significant_cons c r hn]
        simp only [Scan.unread, significant_nil]; omega
    · rw [heq] at herr; simp [Scan.err] at herr

/-- The character loop returns without error only at the end of the input. -/
theorem scan_ret_none (e : Encoding) (rest : List Nat) :
    ∀ (j : Nat) (dbuf : List Nat) (si : Nat) (u : List Nat) (s : Nat),
      e.scan rest j dbuf si = Scan.ret u s none → u = [] := by
  induction rest with
  | nil =>
    intro j dbuf si u s h
    by_cases h4 : 4 ≤ j
    · rw [scan_done e [] j dbuf si h4] at h; simp at h
    · rw [scan_nil e j dbuf si (by omega)] at h
      by_cases h0 : j = 0
      · rw [if_pos h0] at h
        simp only [Scan.ret.injEq] at h; exact h.1.symm
      · rw [if_neg h0] at h
        by_cases h1 : j = 1 ∨ e.padChar ≠ NoPadding
        · rw [if_pos h1] at h; simp at h
        · rw [if_neg h1] at h; simp at h
  | cons c r ih =>
    intro j dbuf si u s h
    by_cases h4 : 4 ≤ j
    · rw [scan_done e (c :: r) j dbuf si h4] at h; simp at h
    rcases scan_cons_cases e c r j dbuf si (by omega) with
      ⟨_, heq⟩ | ⟨_, _, heq⟩ | ⟨_, _, u', s', err, heq, _⟩ |
      ⟨_, _, _, _, _, _, s', heq⟩ | ⟨_, _, _, _, u', s', heq, _⟩
    · rw [heq] at h; exact ih _ _ _ u s h
    · rw [heq] at h; exact ih _ _ _ u s h
    · rw [heq] at h; simp at h
    · rw [heq] at h; simp at h
    · rw [heq] at h; simp at h

/-- Where the errors of the character loop point, for a quantum that began
at index `si0`: never before `si0`, and a quantum that is decoded together
with its error (trailing garbage) has read at least four characters. -/
theorem scan_err (e : Encoding) (rest : List Nat) :
    ∀ (j : Nat) (dbuf : List Nat) (si si0 : Nat), j ≤ 4 → si0 + j ≤ si →
      (∀ u s err, e.scan rest j dbuf si = Scan.ret u s (some err) →
        (si0 : Int) ≤ err.offset) ∧
      (∀ d dlen u s eo, e.scan rest j dbuf si = Scan.brk d dlen u s eo →
        dlen ≤ 4 ∧ (u = [] ∨ si0 + 4 ≤ s) ∧
        (∀ err, eo = some err → err.offset = (s : Int) ∧ si0 + 4 ≤ s)) := by
  induction rest with
  | nil =>
    intro j dbuf si si0 hj hsi
    by_cases h4 : j = 4
    · subst h4
      rw [scan_done e [] 4 dbuf si (le_refl _)]
      refine ⟨fun u s err h => by simp at h, fun d dlen u s eo h => ?_⟩
      simp only [Scan.brk.injEq] at h
      obtain ⟨_, h2, h3, _, h5⟩ := h
      exact ⟨by omega, Or.inl h3.symm, fun err he => by rw [← h5] at he; simp at he⟩
    · have hj4 : j < 4 := by omega
      rw [scan_nil e j dbuf si hj4]
      by_cases h0 : j = 0
      · rw [if_pos h0]
        exact ⟨fun u s err h => by simp at h, fun d dlen u s eo h => by simp at h⟩
      · rw [if_neg h0]
        by_cases h1 : j = 1 ∨ e.padChar ≠ NoPadding
        · rw [if_pos h1]
          refine ⟨fun u s err h => ?_, fun d dlen u s eo h => by simp at h⟩
          simp only [Scan.ret.injEq, Option.some.injEq] at h
          rw [← h.2.2]; simp only []; omega
        · rw [if_neg h1]
          refine ⟨fun u s err h => by simp at h, fun d dlen u s eo h => ?_⟩
          simp only [Scan.brk.injEq] at h
          obtain ⟨_, h2, h3, _, h5⟩ := h
          exact ⟨by omega, Or.inl h3.symm, fun err he => by rw [← h5] at he; simp at he⟩
  | cons c r ih =>
    intro j dbuf si si0 hj hsi
    by_cases h4 : j = 4
    · subst h4
      rw [scan_done e (c :: r) 4 dbuf si (le_refl _)]
      refine ⟨fun u s err h => by simp at h, fun d dlen u s eo h => ?_⟩
      simp only [Scan.brk.injEq] at h
      obtain ⟨_, h2, _, h4, h5⟩ := h
      exact ⟨by omega, Or.inr (by omega), fun err he => by rw [← h5] at he; simp at he⟩
    have hj4 : j < 4 := by omega
    rcases scan_cons_cases e c r j dbuf si hj4 with
      ⟨hc, heq⟩ | ⟨hc, hn, heq⟩ | ⟨_, _, u, s, err, heq, hoff⟩ |
      ⟨hc, hn, hp, hj23, hsig, hall, s, heq⟩ | ⟨_, _, _, _, u, s, heq, hs⟩
    · rw [heq]; exact ih (j + 1) _ (si + 1) si0 (by omega) (by omega)
    · rw [heq]; exact ih j _ (si + 1) si0 hj (by omega)
    · rw [heq]
      refine ⟨fun u' s' err' h => ?_, fun d dlen u s eo h => by simp at h⟩
      simp only [Scan.ret.injEq, Option.some.injEq] at h
      rw [← h.2.2]; omega
    · rw [heq]
      refine ⟨fun u s err h => by simp at h, fun d dlen u s' eo h => ?_⟩
      simp only [Scan.brk.injEq] at h
      obtain ⟨_, h2, h3, _, h5⟩ := h
      exact ⟨by omega, Or.inl h3.symm, fun err he => by rw [← h5] at he; simp at he⟩
    · rw [heq]
      refine ⟨fun u s err h => by simp at h, fun d dlen u' s' eo h => ?_⟩
      simp only [Scan.brk.injEq] at h
      obtain ⟨_, h2, h3, h4', h5⟩ := h
      refine ⟨by omega, Or.inr (by omega), fun err he => ?_⟩
      rw [← h5] at he
      simp only [Option.some.injEq] at he
      rw [← he]
      exact ⟨by simp [h4'], by omega⟩

/-! ## Decoding arbitrary strings -/

theorem decodeQuantum_of_ret (e : Encoding) (rest : List Nat) (si : Nat) (u : List Nat)
    (s : Nat) (eo : Option CorruptInputError)
    (h : e.scan rest 0 [0, 0, 0, 0] si = Scan.ret u s eo) :
    e.decodeQuantum rest si = ⟨u, s, [], eo⟩ := by
  unfold Encoding.decodeQuantum
  rw [h]

theorem decodeQuantum_of_brk (e : Encoding) (hs : e.strict = false) (rest : List Nat)
    (si : Nat) (d : List Nat) (dlen : Nat) (u : List Nat) (s : Nat)
    (eo : Option CorruptInputError)
    (h : e.scan rest 0 [0, 0, 0, 0] si = Scan.brk d dlen u s eo) :
    (e.decodeQuantum rest si).rest = u ∧ (e.decodeQuantum rest si).nsi = s ∧
      (e.decodeQuantum rest si).err = eo ∧ (e.decodeQuantum rest si).out.length = dlen - 1 := by
  unfold Encoding.decodeQuantum
  rw [h]
  simp only [hs, Bool.false_eq_true, false_and, if_false]
  split <;> simp

/-- Without the strict flag `decodeQuantum` returns the error of its
character loop. -/
theorem decodeQuantum_err (e : Encoding) (hs : e.strict = false) (rest : List Nat)
    (si : Nat) : (e.decodeQuantum rest si).err = (e.scan rest 0 [0, 0, 0, 0] si).err := by
  cases h : e.scan rest 0 [0, 0, 0, 0] si with
  | ret u s eo => rw [decodeQuantum_of_ret e rest si u s eo h]; rfl
  | brk d dlen u s eo => rw [(decodeQuantum_of_brk e hs rest si d dlen u s eo h).2.2.1]; rfl

/-- Bounds on a quantum that began at index `si`: at most three bytes; an
error points at `si` or later, and at `si + 4` or later when bytes come with
it; without error the input is used up or the index advanced by four. -/
theorem decodeQuantum_bounds (e : Encoding) (hs : e.strict = false) (rest : List Nat)
    (si : Nat) :
    (e.decodeQuantum rest si).out.length ≤ 3 ∧
    (∀ err, (e.decodeQuantum rest si).err = some err →
      (si : Int) ≤ err.offset ∧
      ((e.decodeQuantum rest si).out ≠ [] → ((si + 4 : Nat) : Int) ≤ err.offset)) ∧
    ((e.decodeQuantum rest si).err = none →
      (e.decodeQuantum rest si).rest = [] ∨ si + 4 ≤ (e.decodeQuantum rest si).nsi) := by
  obtain ⟨hr, hb⟩ := scan_err e rest 0 [0, 0, 0, 0] si si (by omega) (by omega)
  cases h : e.scan rest 0 [0, 0, 0, 0] si with
  | ret u s eo =>
    rw [decodeQuantum_of_ret e rest si u s eo h]
    refine ⟨by simp, fun err he => ⟨?_, fun hne => absurd rfl hne⟩, ?_⟩
    · simp only at he
      subst he
      exact hr u s err h
    · intro he
      simp only at he
      subst he
      left
      exact scan_ret_none e rest 0 [0, 0, 0, 0] si u s h
  | brk d dlen u s eo =>
    obtain ⟨q1, q2, q3, q4⟩ := decodeQuantum_of_brk e hs rest si d dlen u s eo h
    obtain ⟨b1, b2, b3⟩ := hb d dlen u s eo h
    rw [q1, q2, q3, q4]
    refine ⟨by omega, fun err he => ?_, fun he => ?_⟩
    · obtain ⟨c1, c2⟩ := b3 err he
      rw [c1]
      exact ⟨by omega, fun _ => by omega⟩
    · exact b2


/-- An illegal character makes the quantum loop fail: one that is no digit,
no newline and not the padding character. -/
theorem decodeTail_illegal (e : Encoding) (hs : e.strict = false) (h10 : e.dec 10 = 255)
    (h13 : e.dec 13 = 255) (c : Nat) (hc : e.dec c = 255) (hn : ¬ (c = 10 ∨ c = 13))
    (hp : (c : Int) ≠ e.padChar) :
    ∀ (fuel : Nat) (rest : List Nat) (si : Nat) (out : List Nat), rest.length ≤ fuel →
      c ∈ rest → ∃ o err, e.decodeTail fuel rest si out = some (o, some err) := by
  intro fuel
  induction fuel with
  | zero =>
    intro rest si out hlen hmem
    have : rest = [] := List.eq_nil_of_length_eq_zero (by omega)
    subst this
    exact absurd hmem (List.not_mem_nil c)
  | succ f ih =>
    intro rest si out hlen hmem
    have hpos : 0 < rest.length := List.length_pos_of_mem hmem
    rw [decodeTail_step e f si rest out hpos]
    by_cases herr : (e.decodeQuantum rest si).err = none
    · rw [if_neg (by simpa using herr)]
      have hlt := decodeQuantum_rest_lt e rest si hpos
      refine ih _ _ _ (by omega) ?_
      rw [decodeQuantum_rest]
      rw [decodeQuantum_err e hs] at herr
      exact (scan_ok e h10 h13 rest 0 _ si (by omega) herr).1 c hmem hc hn hp
    · rw [if_pos herr]
      obtain ⟨err, he⟩ := Option.ne_none_iff_exists'.mp herr
      exact ⟨_, err, by rw [he]⟩

/-- When the quantum loop succeeds, the characters other than newlines are
a multiple of four with padding, and not one more than a multiple of four
without. -/
theorem decodeTail_significant (e : Encoding) (hs : e.strict = false) (h10 : e.dec 10 = 255)
    (h13 : e.dec 13 = 255) :
    ∀ (fuel : Nat) (rest : List Nat) (si : Nat) (out o : List Nat),
      e.decodeTail fuel rest si out = some (o, none) →
      (e.padChar ≠ NoPadding → significant rest % 4 = 0) ∧
      (e.padChar = NoPadding → significant rest % 4 ≠ 1) := by
  intro fuel
  induction fuel with
  | zero =>
    intro rest si out o h
    cases rest with
    | nil => simp [significant_nil]
    | cons c r => rw [Encoding.decodeTail.eq_def] at h; simp at h
  | succ f ih =>
    intro rest si out o h
    by_cases hpos : 0 < rest.length
    · rw [decodeTail_step e f si rest out hpos] at h
      by_cases herr : (e.decodeQuantum rest si).err = none
      · rw [if_neg (by simpa using herr)] at h
        obtain ⟨i1, i2⟩ := ih _ _ _ _ h
        rw [decodeQuantum_rest] at i1 i2
        rw [decodeQuantum_err e hs] at herr
        rcases (scan_ok e h10 h13 rest 0 _ si (by omega) herr).2 with
          h1 | ⟨h1, _, h3⟩ | ⟨h1, h2, h3⟩
        · exact ⟨fun hp => by have := i1 hp; omega, fun hp => by have := i2 hp; omega⟩
        · exact ⟨fun _ => by omega, fun _ => by omega⟩
        · exact ⟨fun hp => absurd h2 hp, fun _ => by omega⟩
      · rw [if_pos herr] at h
        simp only [Option.some.injEq, Prod.mk.injEq] at h
        exact absurd h.2 herr
    · have : rest = [] := List.eq_nil_of_length_eq_zero (by omega)
      subst this
      simp [significant_nil]

/-- The bytes returned alongside an error are at most three for every four
characters before the offset of the error. -/
theorem decodeTail_offset (e : Encoding) (hs : e.strict = false) :
    ∀ (fuel : Nat) (rest : List Nat) (si : Nat) (out o : List Nat) (err : CorruptInputError),
      out.length ≤ 3 * (si / 4) →
      e.decodeTail fuel rest si out = some (o, some err) →
      0 ≤ err.offset ∧ (o.length : Int) ≤ 3 * (err.offset / 4) := by
  intro fuel
  induction fuel with
  | zero =>
    intro rest si out o err _ h
    rw [Encoding.decodeTail.eq_def] at h
    split_ifs at h
    simp at h
  | succ f ih =>
    intro rest si out o err hout h
    by_cases hpos : 0 < rest.length
    · rw [decodeTail_step e f si rest out hpos] at h
      obtain ⟨b1, b2, b3⟩ := decodeQuantum_bounds e hs rest si
      by_cases herr : (e.decodeQuantum rest si).err = none
      · rw [if_neg (by simpa using herr)] at h
        rcases b3 herr with hnil | hadv
        · rw [hnil, decodeTail_nil] at h
          simp at h
        · refine ih _ _ _ _ err ?_ h
          rw [List.length_append]
          omega
      · rw [if_pos herr] at h
        simp only [Option.some.injEq, Prod.mk.injEq] at h
        obtain ⟨h1, h2⟩ := h
        obtain ⟨c1, c2⟩ := b2 err h2
        rw [← h1, List.length_append]
        by_cases hq : (e.decodeQuantum rest si).out = []
        · rw [hq]
          simp only [List.length_nil, Nat.add_zero]
          omega
        · have c3 := c2 hq
          push_cast at c3 ⊢
          omega
    · have : rest = [] := List.eq_nil_of_length_eq_zero (by omega)
      subst this
      rw [decodeTail_nil] at h
      simp at h

theorem dec_newline : stdPadding.dec 10 = 255 ∧ stdPadding.dec 13 = 255 := by decide

set_option maxRecDepth 100000 in
theorem dec_of_mem : ∀ c, c < 256 → stdPadding.dec c ≠ 255 → c ∈ urlSafeAsc := by decide

/-- A character outside the alphabet has no entry in the inverse table. -/
theorem dec_eq_255 (c : Nat) (h : c ∉ urlSafeAsc) : stdPadding.dec c = 255 := by
  by_cases hc : c < 256
  · by_contra hne
    exact h (dec_of_mem c hc hne)
  · unfold Encoding.dec
    exact List.getD_eq_default _ _ (by rw [stdPadding_decodeMap_length]; omega)

/-- The result of `DecodeString`, for both encodings. -/
theorem DecodeString_cases (e : Encoding) (he : e = stdPadding ∨ e = noPadding)
    (s : List Nat) : ∃ o eo, e.DecodeString s = some (o, eo) := by
  have h := DecodeString_isSome e he s
  cases hd : e.DecodeString s with
  | none => rw [hd] at h; simp at h
  | some r => exact ⟨r.1, r.2, rfl⟩

theorem significant_eq_length (s : List Nat) (h : ∀ c ∈ s, c ≠ 10 ∧ c ≠ 13) :
    significant s = s.length := by
  induction s with
  | nil => rfl
  | cons c s ih =>
    have hc := h c (by simp)
    rw [significant_cons c s (by omega), ih (fun d hd => h d (by simp [hd])),
      List.length_cons]

/-- An illegal character fails `DecodeString`, for both encodings. -/
theorem DecodeString_illegal (e : Encoding) (he : e = stdPadding ∨ e = noPadding)
    (s : List Nat) (c : Nat) (hc : c ∈ s) (ha : c ∉ urlSafeAsc) (hn : ¬ (c = 10 ∨ c = 13))
    (hp : (c : Int) ≠ e.padChar) : ∃ o err, e.DecodeString s = some (o, some err) := by
  have hd : e.dec c = 255 ∧ e.dec 10 = 255 ∧ e.dec 13 = 255 ∧ e.strict = false := by
    rcases he with rfl | rfl
    · exact ⟨dec_eq_255 c ha, dec_newline.1, dec_newline.2, rfl⟩
    · exact ⟨dec_eq_255 c ha, dec_newline.1, dec_newline.2, rfl⟩
  rw [DecodeString_eq e he]
  exact decodeTail_illegal e hd.2.2.2 hd.2.1 hd.2.2.1 c hd.1 hn hp _ s 0 [] (le_refl _) hc

/-- What a successful `DecodeString` says about the number of characters
other than newlines, for both encodings. -/
theorem DecodeString_significant (e : Encoding) (he : e = stdPadding ∨ e = noPadding)
    (s o : List Nat) (h : e.DecodeString s = some (o, none)) :
    (e.padChar ≠ NoPadding → significant s % 4 = 0) ∧
    (e.padChar = NoPadding → significant s % 4 ≠ 1) := by
  have hd : e.dec 10 = 255 ∧ e.dec 13 = 255 ∧ e.strict = false := by
    rcases he with rfl | rfl
    · exact ⟨dec_newline.1, dec_newline.2, rfl⟩
    · exact ⟨dec_newline.1, dec_newline.2, rfl⟩
  rw [DecodeString_eq e he] at h
  exact decodeTail_significant e hd.2.2 hd.1 hd.2.1 _ s 0 [] o h

/-- The bytes `DecodeString` returns alongside an error, for both encodings. -/
theorem DecodeString_offset (e : Encoding) (he : e = stdPadding ∨ e = noPadding)
    (s o : List Nat) (err : CorruptInputError) (h : e.DecodeString s = some (o, some err)) :
    0 ≤ err.offset ∧ (o.length : Int) ≤ 3 * (err.offset / 4) ∧ (err.offset < 4 → o = []) := by
  have hs : e.strict = false := by rcases he with rfl | rfl <;> rfl
  rw [DecodeString_eq e he] at h
  obtain ⟨h1, h2⟩ := decodeTail_offset e hs _ s 0 [] o err (by simp) h
  refine ⟨h1, h2, fun h4 => ?_⟩
  have : (o.length : Int) ≤ 0 := by omega
  exact List.eq_nil_of_length_eq_zero (by omega)

/-- Without a length check `bytesToUint` reads the first eight bytes of a
longer buffer. -/
theorem bytesToUint_take (buf : List Nat) (le : Bool) (h : 8 ≤ buf.length) :
    ∃ v, bytesToUint buf le = Run.returns v ∧ bytesToUint (buf.take 8) le = Run.returns v := by
  match buf, h with
  | b0 :: b1 :: b2 :: b3 :: b4 :: b5 :: b6 :: b7 :: t, _ =>
    cases le
    · exact ⟨_, rfl, rfl⟩
    · exact ⟨_, rfl, rfl⟩

theorem bytesToUint_short (buf : List Nat) (le : Bool) (h : buf.length < 8) :
    bytesToUint buf le = Run.panics := by
  match buf, h with
  | [], _ => cases le <;> rfl
  | [_], _ => cases le <;> rfl
  | [_, _], _ => cases le <;> rfl
  | [_, _, _], _ => cases le <;> rfl
  | [_, _, _, _], _ => cases le <;> rfl
  | [_, _, _, _, _], _ => cases le <;> rfl
  | [_, _, _, _, _, _], _ => cases le <;> rfl
  | [_, _, _, _, _, _, _], _ => cases le <;> rfl
  | _ :: _ :: _ :: _ :: _ :: _ :: _ :: _ :: t, h => simp at h; omega

theorem returnUint_long (buf : List Nat) (eo : Option CorruptInputError) (le : Bool)
    (h : 8 ≤ buf.length) :
    ∃ v, returnUint (some (buf, eo)) le = some (Run.returns (v, eo)) ∧
      bytesToUint (buf.take 8) le = Run.returns v := by
  obtain ⟨v, h1, h2⟩ := bytesToUint_take buf le h
  exact ⟨v, by simp only [returnUint, h1], h2⟩

theorem returnUint_short (buf : List Nat) (eo : Option CorruptInputError) (le : Bool)
    (h : buf.length < 8) : returnUint (some (buf, eo)) le = some Run.panics := by
  simp only [returnUint, bytesToUint_short buf le h]

/-! ## Decoding after encoded groups -/

theorem shiftErr_none (k : Nat) : shiftErr k none = none := rfl

theorem shiftErr_some (k : Nat) (err : CorruptInputError) :
    shiftErr k (some err) = some ⟨err.offset + (k : Int)⟩ := rfl

/-- The character loop does the same wherever the input lies: only the index
and the offsets of the errors move with it. -/
theorem scan_shift (e : Encoding) (k : Nat) (rest : List Nat) :
    ∀ (j : Nat) (dbuf : List Nat) (si : Nat),
      e.scan rest j dbuf (si + k) = (e.scan rest j dbuf si).shift k := by
  induction rest with
  | nil =>
    intro j dbuf si
    by_cases h4 : 4 ≤ j
    · rw [scan_done e [] j dbuf _ h4, scan_done e [] j dbuf _ h4]; rfl
    · rw [scan_nil e j dbuf _ (by omega), scan_nil e j dbuf _ (by omega)]
      by_cases h0 : j = 0
      · rw [if_pos h0, if_pos h0]; rfl
      · rw [if_neg h0, if_neg h0]
        by_cases h1 : j = 1 ∨ e.padChar ≠ NoPadding
        · rw [if_pos h1, if_pos h1]
          simp only [Scan.shift, shiftErr_some, Scan.ret.injEq, Option.some.injEq,
            CorruptInputError.mk.injEq, true_and]
          push_cast; omega
        · rw [if_neg h1, if_neg h1]; rfl
  | cons c r ih =>
    intro j dbuf si
    by_cases h4 : 4 ≤ j
    · rw [scan_done e _ j dbuf _ h4, scan_done e _ j dbuf _ h4]; rfl
    have hj : j < 4 := by omega
    have hsi : si + k + 1 = si + 1 + k := by omega
    by_cases hc : e.dec c ≠ 255
    · rw [scan_digit e c r j dbuf _ hj hc, scan_digit e c r j dbuf _ hj hc, hsi]
      exact ih _ _ _
    have hc : e.dec c = 255 := by simpa using hc
    by_cases hn : c = 10 ∨ c = 13
    · rw [scan_newline e c r j dbuf _ hj hc hn, scan_newline e c r j dbuf _ hj hc hn, hsi]
      exact ih _ _ _
    by_cases hp : (c : Int) ≠ e.padChar
    · rw [scan_illegal e c r j dbuf _ hj hc hn hp, scan_illegal e c r j dbuf _ hj hc hn hp]
      simp only [Scan.shift, shiftErr_some, Scan.ret.injEq, Option.some.injEq,
        CorruptInputError.mk.injEq, true_and]
      refine ⟨by omega, ?_⟩
      push_cast; omega
    have hp : (c : Int) = e.padChar := by simpa using hp
    by_cases h01 : j = 0 ∨ j = 1
    · rw [scan_pad_early e c r j dbuf _ h01 hc hn hp, scan_pad_early e c r j dbuf _ h01 hc hn hp]
      simp only [Scan.shift, shiftErr_some, Scan.ret.injEq, Option.some.injEq,
        CorruptInputError.mk.injEq, true_and]
      refine ⟨by omega, ?_⟩
      push_cast; omega
    by_cases h2 : j = 2
    · subst h2
      rcases newline_split r with hr | ⟨p, d, l, rfl, hpn, hd⟩
      · rw [scan_pad_two_end e c r dbuf _ hc hn hp hr, scan_pad_two_end e c r dbuf _ hc hn hp hr]
        simp only [Scan.shift, shiftErr_some, Scan.ret.injEq, Option.some.injEq,
          CorruptInputError.mk.injEq, true_and]
        refine ⟨by omega, ?_⟩
        push_cast; omega
      · by_cases hdp : (d : Int) ≠ e.padChar
        · rw [scan_pad_two_other e c p d l dbuf _ hc hn hp hpn hd hdp,
            scan_pad_two_other e c p d l dbuf _ hc hn hp hpn hd hdp]
          simp only [Scan.shift, shiftErr_some, Scan.ret.injEq, Option.some.injEq,
            CorruptInputError.mk.injEq, true_and]
          refine ⟨by omega, ?_⟩
          push_cast; omega
        have hdp : (d : Int) = e.padChar := by simpa using hdp
        rcases newline_split l with hl | ⟨p2, d2, l2, rfl, hp2, hd2⟩
        · rw [scan_pad_two_done e c p d l dbuf _ hc hn hp hpn hd hdp hl,
            scan_pad_two_done e c p d l dbuf _ hc hn hp hpn hd hdp hl]
          simp only [Scan.shift, shiftErr_none, Scan.brk.injEq, true_and, and_true]
          omega
        · rw [scan_pad_two_more e c p d p2 d2 l2 dbuf _ hc hn hp hpn hd hdp hp2 hd2,
            scan_pad_two_more e c p d p2 d2 l2 dbuf _ hc hn hp hpn hd hdp hp2 hd2]
          simp only [Scan.shift, shiftErr_some, Scan.brk.injEq, Option.some.injEq,
            CorruptInputError.mk.injEq, true_and]
          refine ⟨by omega, ?_⟩
          push_cast; omega
    · have h3 : j = 3 := by omega
      subst h3
      rcases newline_split r with hr | ⟨p, d, l, rfl, hpn, hd⟩
      · rw [scan_pad_three_end e c r dbuf _ hc hn hp hr,
          scan_pad_three_end e c r dbuf _ hc hn hp hr]
        simp only [Scan.shift, shiftErr_none, Scan.brk.injEq, true_and, and_true]
        omega
      · rw [scan_pad_three_more e c p d l dbuf _ hc hn hp hpn hd,
          scan_pad_three_more e c p d l dbuf _ hc hn hp hpn hd]
        simp only [Scan.shift, shiftErr_some, Scan.brk.injEq, Option.some.injEq,
          CorruptInputError.mk.injEq, true_and]
        refine ⟨by omega, ?_⟩
        push_cast; omega

/-- Method `decodeQuantum` does the same wherever the input lies. -/
theorem decodeQuantum_shift (e : Encoding) (hs : e.strict = false) (k : Nat)
    (rest : List Nat) (si : Nat) :
    (e.decodeQuantum rest (si + k)).rest = (e.decodeQuantum rest si).rest ∧
    (e.decodeQuantum rest (si + k)).nsi = (e.decodeQuantum rest si).nsi + k ∧
    (e.decodeQuantum rest (si + k)).out = (e.decodeQuantum rest si).out ∧
    (e.decodeQuantum rest (si + k)).err = shiftErr k (e.decodeQuantum rest si).err := by
  unfold Encoding.decodeQuantum
  rw [scan_shift]
  cases e.scan rest 0 [0, 0, 0, 0] si with
  | ret u s eo => exact ⟨rfl, rfl, rfl, rfl⟩
  | brk d dlen u s eo =>
    simp only [Scan.shift, hs, Bool.false_eq_true, false_and, if_false]
    split <;> exact ⟨rfl, rfl, rfl, rfl⟩

theorem shiftErr_eq_none (k : Nat) (eo : Option CorruptInputError) :
    shiftErr k eo = none ↔ eo = none := by
  cases eo <;> simp [shiftErr]

/-- The quantum loop does the same wherever the input lies and whatever was
decoded before it: the bytes already in the buffer stay in front, and the
offsets of the errors move with the input. -/
theorem decodeTail_shift (e : Encoding) (hs : e.strict = false) (k : Nat) (pre : List Nat) :
    ∀ (fuel : Nat) (rest : List Nat) (si : Nat) (out : List Nat),
      e.decodeTail fuel rest (si + k) (pre ++ out) =
        (e.decodeTail fuel rest si out).map (fun r => (pre ++ r.1, shiftErr k r.2)) := by
  intro fuel
  induction fuel with
  | zero =>
    intro rest si out
    cases rest with
    | nil => simp [decodeTail_nil, shiftErr_none]
    | cons c r =>
      rw [Encoding.decodeTail.eq_def, Encoding.decodeTail.eq_def]
      simp
  | succ f ih =>
    intro rest si out
    by_cases hpos : 0 < rest.length
    · obtain ⟨q1, q2, q3, q4⟩ := decodeQuantum_shift e hs k rest si
      rw [decodeTail_step e f _ rest _ hpos, decodeTail_step e f _ rest _ hpos, q1, q2, q3, q4]
      by_cases herr : (e.decodeQuantum rest si).err = none
      · rw [if_neg (by rw [herr]; simp [shiftErr_none]), if_neg (by simpa using herr),
          List.append_assoc, ih]
      · rw [if_pos (by rw [ne_eq, shiftErr_eq_none]; exact herr), if_pos herr]
        simp [List.append_assoc]
    · have : rest = [] := List.eq_nil_of_length_eq_zero (by omega)
      subst this
      simp [decodeTail_nil, shiftErr_none]

/-- The quantum loop undoes the whole groups that `Encode` wrote, whatever
follows them. -/
theorem decodeTail_Encode_append (e : Encoding) (he : e = stdPadding ∨ e = noPadding)
    (t : List Nat) :
    ∀ (B : List Nat), IsBytes B → B.length % 3 = 0 → ∀ (fuel si : Nat) (out : List Nat),
      (e.Encode B).length + t.length ≤ fuel →
      e.decodeTail fuel (e.Encode B ++ t) si out =
        e.decodeTail (fuel - B.length / 3) t (si + (e.Encode B).length) (out ++ B)
  | [], _, _, fuel, si, out, _ => by simp [Encoding.Encode]
  | [a], _, h3, _, _, _, _ => by simp at h3
  | [a, b], _, h3, _, _, _, _ => by simp at h3
  | a :: b :: c :: rest, hB, h3, fuel, si, out, hf => by
    have ha : a < 256 := hB a (by simp)
    have hb : b < 256 := hB b (by simp)
    have hc : c < 256 := hB c (by simp)
    have hrest : IsBytes rest := fun x hx => hB x (by simp [hx])
    have hd : ∀ i, i < 64 → e.dec (e.enc i) = i := by
      rcases he with rfl | rfl <;> exact dec_enc_table
    have d0 := hd (a / 4) (by omega)
    have d1 := hd (a % 4 * 16 + b / 16) (by omega)
    have d2 := hd (b % 16 * 4 + c / 64) (by omega)
    have d3 := hd (c % 64) (by omega)
    have hlen := Encode_length_cons3 e a b c rest
    have h3r : rest.length % 3 = 0 := by
      simp only [List.length_cons] at h3; omega
    obtain ⟨f, rfl⟩ : ∃ f, fuel = f + 1 := ⟨fuel - 1, by omega⟩
    have ih := decodeTail_Encode_append e he t rest hrest h3r f (si + 4) (out ++ [a, b, c])
      (by omega)
    have hq : e.decodeQuantum (e.Encode (a :: b :: c :: rest) ++ t) si =
        ⟨e.Encode rest ++ t, si + 4, [a, b, c], none⟩ := by
      rw [Encode_cons3 e a b c rest ha hb hc]
      simp only [List.cons_append]
      rw [decodeQuantum_valid4 e _ _ _ _ _ _ (by omega) (by omega) (by omega) (by omega),
        d0, d1, d2, d3]
      simp only [Quantum.mk.injEq, List.cons.injEq, and_true, true_and]
      refine ⟨?_, ?_, ?_⟩ <;> omega
    rw [decodeTail_step e f si _ out (by rw [List.length_append]; omega), hq]
    simp only [ne_eq, not_true_eq_false, if_false]
    rw [ih, hlen]
    have e1 : f + 1 - (a :: b :: c :: rest).length / 3 = f - rest.length / 3 := by
      simp only [List.length_cons]; omega
    have e2 : si + 4 + (e.Encode rest).length = si + ((e.Encode rest).length + 4) := by omega
    rw [e1, e2]
    simp

theorem Encode_length_groups (e : Encoding) :
    ∀ (B : List Nat), B.length % 3 = 0 → (e.Encode B).length = 4 * (B.length / 3)
  | [], _ => rfl
  | [a], h3 => by simp at h3
  | [a, b], h3 => by simp at h3
  | a :: b :: c :: rest, h3 => by
    have h3r : rest.length % 3 = 0 := by
      simp only [List.length_cons] at h3; omega
    rw [Encode_length_cons3, Encode_length_groups e rest h3r]
    simp only [List.length_cons]; omega

/-- After the encoding of whole groups `DecodeString` goes on as from the
start: the groups' bytes come before what it returns for the rest, error
or not, and the offset of an error moves by the length of the encoding. -/
theorem DecodeString_append (e : Encoding) (he : e = stdPadding ∨ e = noPadding)
    (B t o : List Nat) (eo : Option CorruptInputError) (hB : IsBytes B)
    (h3 : B.length % 3 = 0) (h : e.DecodeString t = some (o, eo)) :
    e.DecodeString (e.EncodeToString B ++ t) =
      some (B ++ o, shiftErr (e.EncodeToString B).length eo) := by
  have hs : e.strict = false := by rcases he with rfl | rfl <;> rfl
  rw [DecodeString_eq e he] at h ⊢
  unfold Encoding.EncodeToString
  have hl := Encode_length_groups e B h3
  rw [List.length_append,
    decodeTail_Encode_append e he t B hB h3 _ 0 [] (le_refl _),
    decodeTail_fuel e t.length _ t _ _ (le_refl _) (by omega), List.nil_append]
  have key := decodeTail_shift e hs (e.Encode B).length B t.length t 0 []
  rw [List.append_nil] at key
  rw [key, h]
  rfl

/-! ## The encoder bit by bit -/

/-- The padded encoding is the unpadded one followed by the padding. -/
theorem Encode_std_eq_no : ∀ (B : List Nat),
    stdPadding.Encode B = noPadding.Encode B ++ List.replicate (padLen B.length) 61
  | [] => rfl
  | [a] => rfl
  | [a, b] => rfl
  | a :: b :: c :: rest => by
    have ih := Encode_std_eq_no rest
    have hp : padLen (a :: b :: c :: rest).length = padLen rest.length := by
      simp only [padLen, List.length_cons]; omega
    rw [hp]
    simp only [Encoding.Encode, ih, List.cons_append]
    rfl

theorem bitAt_cons3 (a b c : Nat) (rest : List Nat) (j : Nat) :
    bitAt (a :: b :: c :: rest) (j + 24) = bitAt rest j := by
  unfold bitAt
  have h1 : (j + 24) / 8 = j / 8 + 1 + 1 + 1 := by omega
  have h2 : (j + 24) % 8 = j % 8 := by omega
  rw [h1, h2, List.getD_cons_succ, List.getD_cons_succ, List.getD_cons_succ]

theorem sixBits_cons3 (a b c : Nat) (rest : List Nat) (i : Nat) :
    sixBits (a :: b :: c :: rest) (i + 4) = sixBits rest i := by
  unfold sixBits
  have e0 : 6 * (i + 4) = 6 * i + 24 := by omega
  have e1 : 6 * i + 24 + 1 = 6 * i + 1 + 24 := by omega
  have e2 : 6 * i + 24 + 2 = 6 * i + 2 + 24 := by omega
  have e3 : 6 * i + 24 + 3 = 6 * i + 3 + 24 := by omega
  have e4 : 6 * i + 24 + 4 = 6 * i + 4 + 24 := by omega
  have e5 : 6 * i + 24 + 5 = 6 * i + 5 + 24 := by omega
  rw [e0, e1, e2, e3, e4, e5, bitAt_cons3, bitAt_cons3, bitAt_cons3, bitAt_cons3,
    bitAt_cons3, bitAt_cons3]

theorem bitAt_beyond (B : List Nat) (j : Nat) (h : 8 * B.length ≤ j) : bitAt B j = 0 := by
  unfold bitAt
  rw [List.getD_eq_default _ _ (by omega)]
  simp

theorem sixBits_beyond (B : List Nat) (i : Nat) (h : 8 * B.length ≤ 6 * i) :
    sixBits B i = 0 := by
  unfold sixBits
  rw [bitAt_beyond B _ h, bitAt_beyond B _ (by omega), bitAt_beyond B _ (by omega),
    bitAt_beyond B _ (by omega), bitAt_beyond B _ (by omega), bitAt_beyond B _ (by omega)]

theorem sixBits_first (a b c : Nat) (rest : List Nat) (ha : a < 256) (hb : b < 256)
    (hc : c < 256) :
    sixBits (a :: b :: c :: rest) 0 = a / 4 ∧
    sixBits (a :: b :: c :: rest) 1 = a % 4 * 16 + b / 16 ∧
    sixBits (a :: b :: c :: rest) 2 = b % 16 * 4 + c / 64 ∧
    sixBits (a :: b :: c :: rest) 3 = c % 64 := by
  simp only [sixBits, bitAt, Nat.reduceMul, Nat.reduceAdd, Nat.reduceDiv, Nat.reduceMod,
    Nat.reduceSub, Nat.reducePow, List.getD_cons_zero, List.getD_cons_succ, Nat.zero_add,
    Nat.add_zero, Nat.mul_zero]
  refine ⟨?_, ?_, ?_, ?_⟩ <;> omega


/-- The digits of `Encode` are the 6-bit groups of the input's bits. -/
theorem digits_getD : ∀ (B : List Nat), IsBytes B → ∀ i, (digits B).getD i 0 = sixBits B i
  | [], _, i => by
    rw [sixBits_beyond [] i (by simp)]; rfl
  | [a], hB, i => by
    have ha := hB a (by simp)
    match i with
    | 0 =>
      simp only [digits, sixBits, bitAt, Nat.reduceMul, Nat.reduceAdd, Nat.reduceDiv,
        Nat.reduceMod, Nat.reduceSub, Nat.reducePow, List.getD_cons_zero, List.getD_cons_succ,
        List.getD_nil, Nat.zero_add, Nat.add_zero, Nat.mul_zero]
      omega
    | 1 =>
      simp only [digits, sixBits, bitAt, Nat.reduceMul, Nat.reduceAdd, Nat.reduceDiv,
        Nat.reduceMod, Nat.reduceSub, Nat.reducePow, List.getD_cons_zero, List.getD_cons_succ,
        List.getD_nil, Nat.zero_add, Nat.add_zero, Nat.mul_zero]
      omega
    | k + 2 =>
      rw [sixBits_beyond [a] (k + 2) (by simp only [List.length_singleton]; omega)]
      simp [digits]
  | [a, b], hB, i => by
    have ha := hB a (by simp)
    have hb := hB b (by simp)
    match i with
    | 0 =>
      simp only [digits, sixBits, bitAt, Nat.reduceMul, Nat.reduceAdd, Nat.reduceDiv,
        Nat.reduceMod, Nat.reduceSub, Nat.reducePow, List.getD_cons_zero, List.getD_cons_succ,
        List.getD_nil, Nat.zero_add, Nat.add_zero, Nat.mul_zero]
      omega
    | 1 =>
      simp only [digits, sixBits, bitAt, Nat.reduceMul, Nat.reduceAdd, Nat.reduceDiv,
        Nat.reduceMod, Nat.reduceSub, Nat.reducePow, List.getD_cons_zero, List.getD_cons_succ,
        List.getD_nil, Nat.zero_add, Nat.add_zero, Nat.mul_zero]
      omega
    | 2 =>
      simp only [digits, sixBits, bitAt, Nat.reduceMul, Nat.reduceAdd, Nat.reduceDiv,
        Nat.reduceMod, Nat.reduceSub, Nat.reducePow, List.getD_cons_zero, List.getD_cons_succ,
        List.getD_nil, Nat.zero_add, Nat.add_zero, Nat.mul_zero]
      omega
    | k + 3 =>
      rw [sixBits_beyond [a, b] (k + 3) (by simp only [List.length_cons, List.length_nil]; omega)]
      simp [digits]
  | a :: b :: c :: rest, hB, i => by
    have ha := hB a (by simp)
    have hb := hB b (by simp)
    have hc := hB c (by simp)
    obtain ⟨s0, s1, s2, s3⟩ := sixBits_first a b c rest ha hb hc
    match i with
    | 0 => rw [s0]; rfl
    | 1 => rw [s1]; rfl
    | 2 => rw [s2]; rfl
    | 3 => rw [s3]; rfl
    | k + 4 =>
      rw [sixBits_cons3, ← digits_getD rest (fun x hx => hB x (by simp [hx])) k]
      rfl

theorem digits_length : ∀ (B : List Nat), (digits B).length = (8 * B.length + 5) / 6
  | [] => rfl
  | [a] => by simp [digits]
  | [a, b] => by simp [digits]
  | a :: b :: c :: rest => by
    have ih := digits_length rest
    simp only [digits, List.length_cons, ih]
    omega

theorem sixBits_lt (B : List Nat) (hB : IsBytes B) (i : Nat) : sixBits B i < 64 := by
  rw [← digits_getD B hB i]
  by_cases h : i < (digits B).length
  · rw [List.getD_eq_getElem _ _ h]
    exact digits_lt B hB _ (List.getElem_mem _)
  · rw [List.getD_eq_default _ _ (by omega)]; omega

/-! ## The claims -/

/-- C1. Padded round trip: for every byte sequence `B`, the empty one
included, `Decode(Encode(B))` returns no error and returns exactly `B`. -/
theorem Decode_Encode (B : List Nat) (hB : IsBytes B) :
    Decode (Encode B) = some (B, none) :=
  DecodeString_EncodeToString stdPadding (Or.inl rfl) B hB

theorem Decode_Encode_witness :
    IsBytes (bytesOf "test string") ∧
      Decode (Encode (bytesOf "test string")) = some (bytesOf "test string", none) :=
  ⟨by decide, Decode_Encode _ (by decide)⟩

/-- C2. Unpadded round trip: for every byte sequence `B`, the empty one
included, `DecodeNoPadding(EncodeNoPadding(B))` returns no error and returns
exactly `B`. -/
theorem DecodeNoPadding_EncodeNoPadding (B : List Nat) (hB : IsBytes B) :
    DecodeNoPadding (EncodeNoPadding B) = some (B, none) :=
  DecodeString_EncodeToString noPadding (Or.inr rfl) B hB

theorem DecodeNoPadding_EncodeNoPadding_witness :
    IsBytes (bytesOf "a longer sentence.") ∧
      DecodeNoPadding (EncodeNoPadding (bytesOf "a longer sentence.")) =
        some (bytesOf "a longer sentence.", none) :=
  ⟨by decide, DecodeNoPadding_EncodeNoPadding _ (by decide)⟩

/-- C3, at the failing input. The one-byte sequence `[0]` is byte-wise less
than its extension `[0, 0]`, but `Encode [0] = "--=="` is not byte-wise less
than `Encode [0, 0] = "---="`: it is greater, because the padding character
`'='` sorts after the alphabet character `'-'`. -/
theorem Encode_order_breaks :
    strLess [0] [0, 0] = true ∧ strLess (Encode [0]) (Encode [0, 0]) = false ∧
      strLess (Encode [0, 0]) (Encode [0]) = true ∧
      Encode [0] = bytesOf "--==" ∧ Encode [0, 0] = bytesOf "---=" := by
  decide

/-- C4. Order preservation of the padded encoder away from prefixes: for
byte sequences `A` and `B` neither of which is a prefix of the other, and in
particular for distinct sequences of one length, `A < B` byte-wise if and
only if `Encode(A) < Encode(B)` byte-wise; hence for a list `L` of byte
sequences none of which is a proper prefix of another, decoding the sorted
encodings `S` gives the sorted originals `T`. -/
theorem Encode_order_apart (A B : List Nat) (hA : IsBytes A) (hB : IsBytes B) :
    (¬ A <+: B → ¬ B <+: A →
      (strLess A B = true ↔ strLess (Encode A) (Encode B) = true)) ∧
    (A.length = B.length → A ≠ B →
      (strLess A B = true ↔ strLess (Encode A) (Encode B) = true)) ∧
    (∀ L S T : List (List Nat), (∀ x ∈ L, IsBytes x) →
      (∀ x ∈ L, ∀ y ∈ L, x <+: y → x = y) →
      S.Perm (L.map Encode) → S.Pairwise (fun x y => strLess y x = false) →
      T.Perm L → T.Pairwise (fun x y => strLess y x = false) →
      S.map Decode = T.map (fun b => some (b, none))) := by
  refine ⟨?_, ?_, ?_⟩
  · intro hAB hBA
    show _ ↔ strLess (stdPadding.Encode A) (stdPadding.Encode B) = true
    rw [Encode_std_less A B hA hB ((differ_iff A B).mpr ⟨hAB, hBA⟩)]
  · intro hlen hne
    show _ ↔ strLess (stdPadding.Encode A) (stdPadding.Encode B) = true
    rw [Encode_std_less A B hA hB (differ_of_ne A B hlen hne)]
  · intro L S T hL hpre hS hSs hT hTs
    refine sorted_decode Encode Decode L S T ?_ ?_ hS hSs hT hTs
    · intro x hx y hy h
      show strLess (stdPadding.Encode y) (stdPadding.Encode x) = false
      by_cases hxy : y = x
      · subst hxy; exact strLess_irrefl _
      · rw [Encode_std_less y x (hL y hy) (hL x hx) ((differ_iff y x).mpr
          ⟨fun h' => hxy (hpre y hy x hx h'), fun h' => hxy (hpre x hx y hy h').symm⟩)]
        exact h
    · intro x hx
      exact DecodeString_EncodeToString stdPadding (Or.inl rfl) x (hL x hx)

theorem Encode_order_apart_witness :
    (IsBytes (bytesOf "099") ∧ IsBytes (bytesOf "100")) ∧
      (strLess (bytesOf "099") (bytesOf "100") = true ↔
        strLess (Encode (bytesOf "099")) (Encode (bytesOf "100")) = true) ∧
      [Encode (bytesOf "099"), Encode (bytesOf "100")].map Decode =
        [bytesOf "099", bytesOf "100"].map (fun b => some (b, none)) :=
  ⟨⟨by decide, by decide⟩,
    (Encode_order_apart (bytesOf "099") (bytesOf "100") (by decide) (by decide)).2.1
      (by decide) (by decide),
    (Encode_order_apart (bytesOf "099") (bytesOf "100") (by decide) (by decide)).2.2
      [bytesOf "100", bytesOf "099"] [Encode (bytesOf "099"), Encode (bytesOf "100")]
      [bytesOf "099", bytesOf "100"] (by decide) (by decide) (by decide) (by decide)
      (by decide) (by decide)⟩

/-- C5. Order preservation of the unpadded encoder: for all byte sequences
`A` and `B`, of any lengths and also when one is a prefix of the other,
`A < B` byte-wise if and only if `EncodeNoPadding(A) < EncodeNoPadding(B)`
byte-wise; hence for every list `L` of byte sequences, decoding the sorted
unpadded encodings `S` gives the sorted originals `T`. -/
theorem EncodeNoPadding_order (A B : List Nat) (hA : IsBytes A) (hB : IsBytes B) :
    (strLess A B = true ↔ strLess (EncodeNoPadding A) (EncodeNoPadding B) = true) ∧
    (∀ L S T : List (List Nat), (∀ x ∈ L, IsBytes x) →
      S.Perm (L.map EncodeNoPadding) → S.Pairwise (fun x y => strLess y x = false) →
      T.Perm L → T.Pairwise (fun x y => strLess y x = false) →
      S.map DecodeNoPadding = T.map (fun b => some (b, none))) := by
  refine ⟨?_, ?_⟩
  · show _ ↔ strLess (noPadding.Encode A) (noPadding.Encode B) = true
    rw [Encode_no_less A B hA hB]
  · intro L S T hL hS hSs hT hTs
    refine sorted_decode EncodeNoPadding DecodeNoPadding L S T ?_ ?_ hS hSs hT hTs
    · intro x hx y hy h
      show strLess (noPadding.Encode y) (noPadding.Encode x) = false
      rw [Encode_no_less y x (hL y hy) (hL x hx)]; exact h
    · intro x hx
      exact DecodeString_EncodeToString noPadding (Or.inr rfl) x (hL x hx)

theorem EncodeNoPadding_order_witness :
    (IsBytes [0] ∧ IsBytes [0, 0]) ∧
      (strLess [0] [0, 0] = true ↔
        strLess (EncodeNoPadding [0]) (EncodeNoPadding [0, 0]) = true) ∧
      [EncodeNoPadding [0], EncodeNoPadding [0, 0]].map DecodeNoPadding =
        [[0], [0, 0]].map (fun b => some (b, none)) :=
  ⟨⟨by decide, by decide⟩,
    (EncodeNoPadding_order [0] [0, 0] (by decide) (by decide)).1,
    (EncodeNoPadding_order [0] [0, 0] (by decide) (by decide)).2
      [[0, 0], [0]] [EncodeNoPadding [0], EncodeNoPadding [0, 0]] [[0], [0, 0]]
      (by decide) (by decide) (by decide) (by decide) (by decide)⟩

/-- C6. The alphabet `urlSafeAsc` has exactly 64 characters and is strictly
ascending in ASCII: `urlSafeAsc[i] < urlSafeAsc[j]` for all `i < j < 64`; so
its characters are pairwise distinct and the map from a 6-bit index to its
character is strictly monotone. -/
theorem urlSafeAsc_ascending :
    urlSafeAsc.length = 64 ∧
    (∀ i j, i < j → j < 64 → urlSafeAsc.getD i 0 < urlSafeAsc.getD j 0) ∧
    urlSafeAsc.Nodup ∧
    (∀ i j, i < 64 → j < 64 → (stdPadding.enc i < stdPadding.enc j ↔ i < j)) :=
  ⟨by decide, fun i j hij hj => (enc_lt_iff i j (by omega) hj).mpr hij, by decide,
    enc_lt_iff⟩

theorem urlSafeAsc_ascending_witness :
    urlSafeAsc.getD 10 0 < urlSafeAsc.getD 11 0 ∧
      (stdPadding.enc 36 < stdPadding.enc 37 ↔ 36 < 37) :=
  ⟨urlSafeAsc_ascending.2.1 10 11 (by decide) (by decide),
    urlSafeAsc_ascending.2.2.2 36 37 (by decide) (by decide)⟩

/-- C7, refuted as stated. The padding character `'='` of the padded codec
does not sort before the first alphabet character `'-'`. -/
theorem padChar_not_below_alphabet :
    stdPadding.padChar = 61 ∧ urlSafeAsc.getD 0 0 = 45 ∧
      ¬ (stdPadding.padChar < ((urlSafeAsc.getD 0 0 : Nat) : Int)) := by
  decide

/-- C7, amended. The padding character of the padded codec is `'='` (61); it
sorts before the alphabet character of index `i < 64` exactly when
`11 ≤ i`: after `'-'` and the digits, before the letters and `'_'`. -/
theorem padChar_rank (i : Nat) (hi : i < 64) :
    stdPadding.padChar = 61 ∧
    (stdPadding.padChar < ((urlSafeAsc.getD i 0 : Nat) : Int) ↔ 11 ≤ i) := by
  refine ⟨rfl, ?_⟩
  have h : urlSafeAsc.getD i 0 = stdPadding.enc i := rfl
  rw [h, enc_table i hi, stdPadding_padChar]
  split_ifs <;> omega

theorem padChar_rank_witness :
    (10 : Nat) < 64 ∧ stdPadding.padChar = 61 ∧
      (stdPadding.padChar < ((urlSafeAsc.getD 10 0 : Nat) : Int) ↔ 11 ≤ 10) :=
  ⟨by decide, padChar_rank 10 (by decide)⟩

/-- C8. Integer round trip, padded: for every 64-bit unsigned `n` and each
endianness flag, `DecodeUint(EncodeUint(n, e), e)` returns normally, with no
error and the value `n`. -/
theorem DecodeUint_EncodeUint (n : Nat) (hn : n < 2 ^ 64) (littleEndian : Bool) :
    DecodeUint (EncodeUint n littleEndian) littleEndian = some (Run.returns (n, none)) := by
  unfold DecodeUint EncodeUint
  rw [DecodeString_EncodeToString stdPadding (Or.inl rfl) _
    (uintToBytes_isBytes n littleEndian)]
  exact returnUint_uintToBytes n hn littleEndian

theorem DecodeUint_EncodeUint_witness :
    (1234567890 : Nat) < 2 ^ 64 ∧
      DecodeUint (EncodeUint 1234567890 true) true = some (Run.returns (1234567890, none)) ∧
      DecodeUint (EncodeUint 1234567890 false) false =
        some (Run.returns (1234567890, none)) :=
  ⟨by decide, DecodeUint_EncodeUint _ (by decide) true,
    DecodeUint_EncodeUint _ (by decide) false⟩

/-- C9. Integer round trip, unpadded: for every 64-bit unsigned `n` and each
endianness flag, `DecodeUintNoPadding(EncodeUintNoPadding(n, e), e)` returns
normally, with no error and the value `n`. -/
theorem DecodeUintNoPadding_EncodeUintNoPadding (n : Nat) (hn : n < 2 ^ 64)
    (littleEndian : Bool) :
    DecodeUintNoPadding (EncodeUintNoPadding n littleEndian) littleEndian =
      some (Run.returns (n, none)) := by
  unfold DecodeUintNoPadding EncodeUintNoPadding
  rw [DecodeString_EncodeToString noPadding (Or.inr rfl) _
    (uintToBytes_isBytes n littleEndian)]
  exact returnUint_uintToBytes n hn littleEndian

theorem DecodeUintNoPadding_EncodeUintNoPadding_witness :
    (2 ^ 64 - 1 : Nat) < 2 ^ 64 ∧
      DecodeUintNoPadding (EncodeUintNoPadding (2 ^ 64 - 1) true) true =
        some (Run.returns (2 ^ 64 - 1, none)) ∧
      DecodeUintNoPadding (EncodeUintNoPadding (2 ^ 64 - 1) false) false =
        some (Run.returns (2 ^ 64 - 1, none)) :=
  ⟨by decide, DecodeUintNoPadding_EncodeUintNoPadding _ (by decide) true,
    DecodeUintNoPadding_EncodeUintNoPadding _ (by decide) false⟩

/-- C10. Numeric order preservation under big-endian serialization: for all
64-bit unsigned `n` and `m`, `n < m` if and only if
`EncodeUint(n, false) < EncodeUint(m, false)` byte-wise, and likewise if and
only if `EncodeUintNoPadding(n, false) < EncodeUintNoPadding(m, false)`. -/
theorem EncodeUint_order (n m : Nat) (hn : n < 2 ^ 64) (hm : m < 2 ^ 64) :
    (n < m ↔ strLess (EncodeUint n false) (EncodeUint m false) = true) ∧
    (n < m ↔
      strLess (EncodeUintNoPadding n false) (EncodeUintNoPadding m false) = true) := by
  have hbn := uintToBytes_isBytes n false
  have hbm := uintToBytes_isBytes m false
  have hlt := strLess_uintToBytes n m hn hm
  refine ⟨?_, ?_⟩
  · show _ ↔ strLess (stdPadding.Encode _) (stdPadding.Encode _) = true
    by_cases hnm : n = m
    · subst hnm; simp [strLess_irrefl]
    · rw [Encode_std_less _ _ hbn hbm (differ_of_ne _ _
        (by rw [uintToBytes_length, uintToBytes_length]) (uintToBytes_ne n m hn hm hnm)), hlt]
      simp
  · show _ ↔ strLess (noPadding.Encode _) (noPadding.Encode _) = true
    rw [Encode_no_less _ _ hbn hbm, hlt]
    simp

theorem EncodeUint_order_witness :
    ((255 : Nat) < 2 ^ 64 ∧ (256 : Nat) < 2 ^ 64) ∧
      (255 < 256 ↔ strLess (EncodeUint 255 false) (EncodeUint 256 false) = true) ∧
      (255 < 256 ↔
        strLess (EncodeUintNoPadding 255 false) (EncodeUintNoPadding 256 false) = true) :=
  ⟨⟨by decide, by decide⟩, EncodeUint_order 255 256 (by decide) (by decide)⟩

/-- C11, refuted as stated. The string `"\n"` holds a character that is
neither an alphabet character nor `'='`, and both `Decode` and
`DecodeNoPadding` accept it without error. -/
theorem Decode_accepts_newline :
    10 ∈ [10] ∧ 10 ∉ urlSafeAsc ∧ (10 : Nat) ≠ 61 ∧
      Decode [10] = some ([], none) ∧ DecodeNoPadding [10] = some ([], none) := by
  decide

/-- C11, amended. A string with a character that is neither an alphabet
character, nor `'\n'` or `'\r'`, nor `'='` makes `Decode` return an error;
a string with a character that is neither an alphabet character nor
`'\n'` or `'\r'`, `'='` included, makes `DecodeNoPadding` return an error. -/
theorem Decode_illegal (s : List Nat) (c : Nat) (hc : c ∈ s) (ha : c ∉ urlSafeAsc)
    (hn : c ≠ 10 ∧ c ≠ 13) :
    (c ≠ 61 → ∃ o err, Decode s = some (o, some err)) ∧
    (∃ o err, DecodeNoPadding s = some (o, some err)) := by
  refine ⟨fun h61 => ?_, ?_⟩
  · refine DecodeString_illegal stdPadding (Or.inl rfl) s c hc ha (by omega) ?_
    rw [stdPadding_padChar]; omega
  · refine DecodeString_illegal noPadding (Or.inr rfl) s c hc ha (by omega) ?_
    rw [noPadding_padChar]; omega

theorem Decode_illegal_witness :
    (33 ∈ bytesOf "-F7!" ∧ 33 ∉ urlSafeAsc ∧ (33 : Nat) ≠ 10 ∧ (33 : Nat) ≠ 13 ∧
        (33 : Nat) ≠ 61) ∧
      (∃ o err, Decode (bytesOf "-F7!") = some (o, some err)) ∧
      (∃ o err, DecodeNoPadding (bytesOf "-F7!") = some (o, some err)) :=
  ⟨by decide,
    (Decode_illegal (bytesOf "-F7!") 33 (by decide) (by decide) (by decide)).1 (by decide),
    (Decode_illegal (bytesOf "-F7!") 33 (by decide) (by decide) (by decide)).2⟩

/-- C12, refuted as stated. The five-character string `"-F72\n"` has a
length that is no multiple of 4, and `Decode` accepts it. -/
theorem Decode_accepts_length_five :
    (bytesOf "-F72" ++ [10]).length % 4 ≠ 0 ∧
      Decode (bytesOf "-F72" ++ [10]) = some ([1, 2, 3], none) := by
  decide

/-- C12, amended. `Decode` returns an error for every string whose number of
characters other than `'\n'` and `'\r'` is no multiple of 4; so it does for
every string without such characters whose length is no multiple of 4. -/
theorem Decode_length (s : List Nat) :
    (significant s % 4 ≠ 0 → ∃ o err, Decode s = some (o, some err)) ∧
    ((∀ c ∈ s, c ≠ 10 ∧ c ≠ 13) → s.length % 4 ≠ 0 →
      ∃ o err, Decode s = some (o, some err)) := by
  have key : significant s % 4 ≠ 0 → ∃ o err, Decode s = some (o, some err) := by
    intro h
    obtain ⟨o, eo, hd⟩ := DecodeString_cases stdPadding (Or.inl rfl) s
    cases eo with
    | none =>
      exact absurd ((DecodeString_significant stdPadding (Or.inl rfl) s o hd).1 (by decide)) h
    | some err => exact ⟨o, err, hd⟩
  exact ⟨key, fun hs hl => key (by rw [significant_eq_length s hs]; exact hl)⟩

theorem Decode_length_witness :
    (significant (bytesOf "-F72-") % 4 ≠ 0 ∧ (bytesOf "-F72-").length % 4 ≠ 0) ∧
      (∃ o err, Decode (bytesOf "-F72-") = some (o, some err)) :=
  ⟨by decide, (Decode_length (bytesOf "-F72-")).1 (by decide)⟩

/-- C13, refuted as stated. The five-character string `"-F72\n"` has a
length that is 1 modulo 4, and `DecodeNoPadding` accepts it. -/
theorem DecodeNoPadding_accepts_length_five :
    (bytesOf "-F72" ++ [10]).length % 4 = 1 ∧
      DecodeNoPadding (bytesOf "-F72" ++ [10]) = some ([1, 2, 3], none) := by
  decide

/-- C13, amended. `DecodeNoPadding` returns an error for every string whose
number of characters other than `'\n'` and `'\r'` is 1 modulo 4; so it does
for every string without such characters whose length is 1 modulo 4. -/
theorem DecodeNoPadding_length (s : List Nat) :
    (significant s % 4 = 1 → ∃ o err, DecodeNoPadding s = some (o, some err)) ∧
    ((∀ c ∈ s, c ≠ 10 ∧ c ≠ 13) → s.length % 4 = 1 →
      ∃ o err, DecodeNoPadding s = some (o, some err)) := by
  have key : significant s % 4 = 1 → ∃ o err, DecodeNoPadding s = some (o, some err) := by
    intro h
    obtain ⟨o, eo, hd⟩ := DecodeString_cases noPadding (Or.inr rfl) s
    cases eo with
    | none =>
      exact absurd h ((DecodeString_significant noPadding (Or.inr rfl) s o hd).2 rfl)
    | some err => exact ⟨o, err, hd⟩
  exact ⟨key, fun hs hl => key (by rw [significant_eq_length s hs]; exact hl)⟩

theorem DecodeNoPadding_length_witness :
    (significant (bytesOf "-F72-") % 4 = 1 ∧ (bytesOf "-F72-").length % 4 = 1) ∧
      (∃ o err, DecodeNoPadding (bytesOf "-F72-") = some (o, some err)) :=
  ⟨by decide, (DecodeNoPadding_length (bytesOf "-F72-")).1 (by decide)⟩

/-- C14, refuted as stated. On `"-F72!"` both `Decode` and `DecodeNoPadding`
return an error, at offset 4, together with the three bytes decoded before
it. -/
theorem Decode_returns_decoded_bytes :
    Decode (bytesOf "-F72!") = some ([1, 2, 3], some ⟨4⟩) ∧
      DecodeNoPadding (bytesOf "-F72!") = some ([1, 2, 3], some ⟨4⟩) := by
  decide

/-- C14, amended. When `Decode` or `DecodeNoPadding` returns the error
`CorruptInputError(k)` with the bytes `o` for a string `s`, then `k ≥ 0` and
`o` has at most `3 * (k / 4)` bytes, so `o` is empty when `k < 4`; and the
bytes decoded before the failure are handed to the caller: for every byte
sequence `B` whose length is a multiple of 3, the string `Encode(B) ++ s`
gets the error `CorruptInputError(k + len(Encode(B)))` with the bytes
`B ++ o`. -/
theorem Decode_failure_bytes (s o : List Nat) (err : CorruptInputError) :
    (Decode s = some (o, some err) →
      0 ≤ err.offset ∧ (o.length : Int) ≤ 3 * (err.offset / 4) ∧
        (err.offset < 4 → o = []) ∧
        ∀ B, IsBytes B → B.length % 3 = 0 →
          Decode (Encode B ++ s) =
            some (B ++ o, some ⟨err.offset + ((Encode B).length : Int)⟩)) ∧
    (DecodeNoPadding s = some (o, some err) →
      0 ≤ err.offset ∧ (o.length : Int) ≤ 3 * (err.offset / 4) ∧
        (err.offset < 4 → o = []) ∧
        ∀ B, IsBytes B → B.length % 3 = 0 →
          DecodeNoPadding (EncodeNoPadding B ++ s) =
            some (B ++ o, some ⟨err.offset + ((EncodeNoPadding B).length : Int)⟩)) := by
  refine ⟨fun h => ?_, fun h => ?_⟩
  · obtain ⟨h1, h2, h3⟩ := DecodeString_offset stdPadding (Or.inl rfl) s o err h
    exact ⟨h1, h2, h3, fun B hB hB3 =>
      DecodeString_append stdPadding (Or.inl rfl) B s o (some err) hB hB3 h⟩
  · obtain ⟨h1, h2, h3⟩ := DecodeString_offset noPadding (Or.inr rfl) s o err h
    exact ⟨h1, h2, h3, fun B hB hB3 =>
      DecodeString_append noPadding (Or.inr rfl) B s o (some err) hB hB3 h⟩

theorem Decode_failure_bytes_witness :
    (Decode (bytesOf "!") = some ([], some ⟨0⟩) ∧ IsBytes [1, 2, 3] ∧
        ([1, 2, 3] : List Nat).length % 3 = 0) ∧
      ((CorruptInputError.mk 0).offset < 4 → ([] : List Nat) = []) ∧
      Decode (Encode [1, 2, 3] ++ bytesOf "!") =
        some ([1, 2, 3] ++ [], some ⟨0 + ((Encode [1, 2, 3]).length : Int)⟩) :=
  ⟨by decide,
    ((Decode_failure_bytes (bytesOf "!") [] ⟨0⟩).1 (by decide)).2.2.1,
    ((Decode_failure_bytes (bytesOf "!") [] ⟨0⟩).1 (by decide)).2.2.2 [1, 2, 3]
      (by decide) (by decide)⟩

/-- C15, refuted as stated. The encoding of nine bytes decodes successfully
to nine bytes, and `DecodeUint` and `DecodeUintNoPadding` return an integer
and no error for it. -/
theorem DecodeUint_accepts_nine_bytes :
    Decode (Encode [0, 0, 0, 0, 0, 0, 0, 1, 2]) = some ([0, 0, 0, 0, 0, 0, 0, 1, 2], none) ∧
      ([0, 0, 0, 0, 0, 0, 0, 1, 2] : List Nat).length ≠ 8 ∧
      DecodeUint (Encode [0, 0, 0, 0, 0, 0, 0, 1, 2]) false = some (Run.returns (1, none)) ∧
      DecodeUintNoPadding (EncodeNoPadding [0, 0, 0, 0, 0, 0, 0, 1, 2]) false =
        some (Run.returns (1, none)) := by
  decide

/-- C15, amended. For a string that decodes successfully to eight bytes or
more, `DecodeUint` and `DecodeUintNoPadding` return no error and the integer
that `bytesToUint` reads from the first eight bytes, whatever follows. -/
theorem DecodeUint_reads_eight (s buf : List Nat) (littleEndian : Bool)
    (h8 : 8 ≤ buf.length) :
    (Decode s = some (buf, none) →
      ∃ v, DecodeUint s littleEndian = some (Run.returns (v, none)) ∧
        bytesToUint (buf.take 8) littleEndian = Run.returns v) ∧
    (DecodeNoPadding s = some (buf, none) →
      ∃ v, DecodeUintNoPadding s littleEndian = some (Run.returns (v, none)) ∧
        bytesToUint (buf.take 8) littleEndian = Run.returns v) := by
  refine ⟨fun h => ?_, fun h => ?_⟩
  · unfold Decode at h
    unfold DecodeUint
    rw [h]
    exact returnUint_long buf none littleEndian h8
  · unfold DecodeNoPadding at h
    unfold DecodeUintNoPadding
    rw [h]
    exact returnUint_long buf none littleEndian h8

theorem DecodeUint_reads_eight_witness :
    8 ≤ ([0, 0, 0, 0, 0, 0, 0, 1, 2] : List Nat).length ∧
      ∃ v, DecodeUint (Encode [0, 0, 0, 0, 0, 0, 0, 1, 2]) false =
          some (Run.returns (v, none)) ∧
        bytesToUint (([0, 0, 0, 0, 0, 0, 0, 1, 2] : List Nat).take 8) false = Run.returns v :=
  ⟨by decide,
    (DecodeUint_reads_eight (Encode [0, 0, 0, 0, 0, 0, 0, 1, 2]) [0, 0, 0, 0, 0, 0, 0, 1, 2]
      false (by decide)).1 (by decide)⟩

/-- C16, at the failing input. `Decode` and `DecodeNoPadding` return an error
on `"!"`, with no bytes; `DecodeUint` and `DecodeUintNoPadding` then call
`bytesToUint` on the empty buffer and panic, for both byte orders. -/
theorem DecodeUint_panics_on_error :
    Decode (bytesOf "!") = some ([], some ⟨0⟩) ∧
      DecodeUint (bytesOf "!") false = some Run.panics ∧
      DecodeUint (bytesOf "!") true = some Run.panics ∧
      DecodeNoPadding (bytesOf "!") = some ([], some ⟨0⟩) ∧
      DecodeUintNoPadding (bytesOf "!") false = some Run.panics ∧
      DecodeUintNoPadding (bytesOf "!") true = some Run.panics := by
  decide

/-- C17. Padding relation: `Encode(B)` is `EncodeNoPadding(B)` followed by
`(3 - N mod 3) mod 3` characters `'='`, that is 0, 1 or 2 of them, for `N`
the length of `B`; its length is `4 * ceil(N / 3)`, a multiple of 4; and
`Encode` of the empty sequence is the empty string. -/
theorem Encode_eq_EncodeNoPadding_append (B : List Nat) :
    Encode B = EncodeNoPadding B ++ List.replicate ((3 - B.length % 3) % 3) 61 ∧
    (3 - B.length % 3) % 3 ≤ 2 ∧
    (Encode B).length = 4 * ((B.length + 2) / 3) ∧
    (Encode B).length % 4 = 0 ∧
    Encode [] = [] := by
  have hlen : (Encode B).length = (B.length + 2) / 3 * 4 := EncodeToString_length stdPadding B
  refine ⟨Encode_std_eq_no B, by omega, by omega, by omega, rfl⟩

/-- C18. Reference definition of the unpadded encoder: `EncodeNoPadding(B)`
has `ceil(8 * N / 6)` characters for `N` input bytes, its `i`-th character is
`urlSafeAsc[k]` for `k` the 6-bit number formed by bits `6i .. 6i+5`, most
significant first, of the concatenated bits of `B` zero-extended on the
right, and so every character of it belongs to the alphabet. -/
theorem EncodeNoPadding_sixBits (B : List Nat) (hB : IsBytes B) :
    (EncodeNoPadding B).length = (8 * B.length + 5) / 6 ∧
    ∀ i, i < (EncodeNoPadding B).length →
      (EncodeNoPadding B).getD i 0 = urlSafeAsc.getD (sixBits B i) 0 ∧
      sixBits B i < 64 ∧ (EncodeNoPadding B).getD i 0 ∈ urlSafeAsc := by
  have he : EncodeNoPadding B = (digits B).map stdPadding.enc := Encode_no_eq_digits B hB
  have hl : (EncodeNoPadding B).length = (digits B).length := by rw [he, List.length_map]
  refine ⟨by rw [hl, digits_length], fun i hi => ?_⟩
  have hi2 : i < (digits B).length := by omega
  have h64 := sixBits_lt B hB i
  have hget : (EncodeNoPadding B).getD i 0 = urlSafeAsc.getD (sixBits B i) 0 := by
    rw [he, List.getD_eq_getElem _ _ (by rw [List.length_map]; exact hi2), List.getElem_map,
      ← digits_getD B hB i, List.getD_eq_getElem _ _ hi2]
    rfl
  refine ⟨hget, h64, ?_⟩
  rw [hget, List.getD_eq_getElem _ _ (by rw [urlSafeAsc_accepted.1]; exact h64)]
  exact List.getElem_mem _

theorem EncodeNoPadding_sixBits_witness :
    IsBytes [255, 1] ∧ (EncodeNoPadding [255, 1]).length = (8 * 2 + 5) / 6 ∧
      (EncodeNoPadding [255, 1]).getD 2 0 = urlSafeAsc.getD (sixBits [255, 1] 2) 0 :=
  ⟨by decide, (EncodeNoPadding_sixBits [255, 1] (by decide)).1,
    ((EncodeNoPadding_sixBits [255, 1] (by decide)).2 2 (by decide)).1⟩

/-- C19. Rank substitution of standard base64: the standard encoding of
`[0x01, 0x02, 0x03]` is `"AQID"`, its symbols have the indices 0, 16, 8, 3 in
the standard alphabet, and `Encode([0x01, 0x02, 0x03])` is the string of the
characters of `urlSafeAsc` at these indices, which is `"-F72"`. -/
theorem Encode_rank_substitution :
    StdEncoding.EncodeToString [1, 2, 3] = bytesOf "AQID" ∧
      (bytesOf "AQID").map (fun ch => encodeStd.indexOf ch) = [0, 16, 8, 3] ∧
      Encode [1, 2, 3] =
        (StdEncoding.EncodeToString [1, 2, 3]).map
          (fun ch => urlSafeAsc.getD (encodeStd.indexOf ch) 0) ∧
      Encode [1, 2, 3] = bytesOf "-F72" ∧ (Encode [1, 2, 3]).length = 4 := by
  decide

/-- C20. Decoding is lenient about trailing bits and so not injective:
`DecodeNoPadding` accepts the distinct strings `"--"` and `"-0"` and maps
both to `[0x00]`; `EncodeNoPadding(DecodeNoPadding("-0"))` is `"--"`, not
`"-0"`; and yet `DecodeNoPadding(EncodeNoPadding(B)) = B` for every byte
sequence `B`. -/
theorem DecodeNoPadding_lenient :
    DecodeNoPadding (bytesOf "--") = some ([0], none) ∧
    DecodeNoPadding (bytesOf "-0") = some ([0], none) ∧
    bytesOf "--" ≠ bytesOf "-0" ∧
    EncodeNoPadding [0] = bytesOf "--" ∧ EncodeNoPadding [0] ≠ bytesOf "-0" ∧
    (∀ B, IsBytes B → DecodeNoPadding (EncodeNoPadding B) = some (B, none)) :=
  ⟨by decide, by decide, by decide, by decide, by decide,
    fun B hB => DecodeString_EncodeToString noPadding (Or.inr rfl) B hB⟩

theorem DecodeNoPadding_lenient_witness :
    IsBytes [0] ∧ DecodeNoPadding (EncodeNoPadding [0]) = some ([0], none) :=
  ⟨by decide, DecodeNoPadding_lenient.2.2.2.2.2 [0] (by decide)⟩

end Gidgets
